import Mathlib

/-!
Shallow embedding of the cursor-based `RingStore` time-series engine of the
web-serial-plotter repository (source: the class with `viewPortCursor` /
`viewPortSize` / `firstTimestamp` fields), together with its momentum-scroll
helper.  JS numbers are modelled as `Option ℚ`: `some q` is a finite value,
`none` collapses the non-finite values (NaN / ±Infinity) that the code treats
uniformly through `Number.isFinite`.  The `Float32Array`/`Float64Array` ring
buffers become Lean lists of length `capacity`; a JS typed-array write at an
out-of-range index is ignored, exactly as `List.set` is.
-/

namespace WSP

/-- A JS number: `some q` finite, `none` non-finite (NaN / ±Infinity). -/
abbrev Val := Option ℚ

/-- `PlotSeries` from `src/types/plot`. -/
structure PlotSeries where
  id : ℕ
  name : String
  color : String
deriving DecidableEq, Repr

/-- The `DEFAULT_COLORS` palette at the bottom of the store module. -/
def DEFAULT_COLORS : List String :=
  ["#60a5fa", "#f472b6", "#34d399", "#fbbf24", "#a78bfa", "#f87171", "#22d3ee", "#84cc16"]

/-- `DEFAULT_COLORS[i % DEFAULT_COLORS.length]`. -/
def defaultColor (i : ℕ) : String := DEFAULT_COLORS.getD (i % DEFAULT_COLORS.length) ""

/-- JS `Math.round`: round half toward positive infinity. -/
def jsRound (x : ℚ) : ℤ := ⌊x + 1/2⌋

/-- One step of the incremental minimum tracker:
`if (Number.isFinite(value)) { if (value < min) min = value }`,
with `none` as the initial `+Infinity`. -/
def updMin : Option ℚ → Val → Option ℚ
  | acc, none => acc
  | none, some v => some v
  | some m, some v => some (if v < m then v else m)

/-- One step of the incremental maximum tracker (`-Infinity` start). -/
def updMax : Option ℚ → Val → Option ℚ
  | acc, none => acc
  | none, some v => some v
  | some m, some v => some (if m < v then v else m)

/-- The mutable state of the cursor-based `RingStore`. -/
structure RingStore where
  series : List PlotSeries
  buffers : List (List Val)
  times : List Val
  capacity : ℕ
  writeIndex : ℕ
  viewPortCursor : ℤ
  viewPortSize : ℤ
  frozen : Bool
  globalMin : Option ℚ
  globalMax : Option ℚ
  firstTimestamp : Option ℚ
deriving DecidableEq, Repr

namespace RingStore

/-- `reset(capacity, viewPortSize, seriesNames)`: reallocate NaN-filled
buffers, zero the counters, clear freeze/range/first-timestamp state. -/
def reset (capacity : ℕ) (viewPortSize : ℤ) (seriesNames : List String) : RingStore :=
  { series := (List.range seriesNames.length).map fun i =>
      { id := i, name := seriesNames.getD i "", color := defaultColor i }
    buffers := List.replicate seriesNames.length (List.replicate capacity none)
    times := List.replicate capacity none
    capacity := capacity
    writeIndex := 0
    viewPortCursor := 0
    viewPortSize := viewPortSize
    frozen := false
    globalMin := none
    globalMax := none
    firstTimestamp := none }

/-- The constructor `new RingStore(capacity, viewPortSize)`. -/
def init (capacity : ℕ) (viewPortSize : ℤ) : RingStore :=
  reset capacity viewPortSize []

/-- `setSeries(names)`: full reset keeping capacity and viewport size. -/
def setSeries (st : RingStore) (names : List String) : RingStore :=
  reset st.capacity st.viewPortSize names

/-- `adjustSeriesCount(newCount)`: grow with default-named/colored series and
fresh NaN buffers, or shrink by dropping trailing series and buffers. -/
def adjustSeriesCount (st : RingStore) (newCount : ℕ) : RingStore :=
  if newCount = st.series.length then st
  else if st.series.length < newCount then
    { st with
      series := st.series ++ (List.range' st.series.length (newCount - st.series.length)).map
        fun i => { id := i, name := "S" ++ toString (i + 1), color := defaultColor i }
      buffers := st.buffers ++
        List.replicate (newCount - st.series.length) (List.replicate st.capacity none) }
  else
    { st with series := st.series.take newCount, buffers := st.buffers.take newCount }

/-- The arity check at the top of `append`:
`if (values.length !== this.buffers.length) this.adjustSeriesCount(values.length)`. -/
def reconcileForAppend (st : RingStore) (m : ℕ) : RingStore :=
  if m ≠ st.buffers.length then st.adjustSeriesCount m else st

/-- The write phase of `append`: one sample goes to ring slot
`writeIndex % capacity` across all buffers (missing trailing channels get NaN),
the range tracker sees the finite values, the receipt time is stamped and the
first-ever timestamp captured, and (when unfrozen) the cursor follows the new
latest index. -/
def writeSample (st1 : RingStore) (now : ℚ) (values : List Val) : RingStore :=
  let idx := st1.writeIndex % st1.capacity
  let n := min values.length st1.buffers.length
  { st1 with
    buffers := (List.range st1.buffers.length).map fun i =>
      if i < n then (st1.buffers.getD i []).set idx (values.getD i none)
      else (st1.buffers.getD i []).set idx none
    globalMin := (values.take n).foldl updMin st1.globalMin
    globalMax := (values.take n).foldl updMax st1.globalMax
    times := st1.times.set idx (some now)
    firstTimestamp := some (st1.firstTimestamp.getD now)
    writeIndex := st1.writeIndex + 1
    viewPortCursor := if st1.frozen then st1.viewPortCursor else (st1.writeIndex : ℤ) }

/-- `append(values)` with the receipt time `now` passed explicitly in place of
`Date.now()`: empty input returns early, otherwise reconcile the channel count
and write the sample. -/
def append (st : RingStore) (now : ℚ) (values : List Val) : RingStore :=
  if values.length = 0 then st
  else (st.reconcileForAppend values.length).writeSample now values

/-- `Math.min(this.writeIndex, this.capacity)` — the retained sample count
(named `retainedCount` inside `setCapacity`). -/
def retainedLength (st : RingStore) : ℕ := min st.writeIndex st.capacity

/-- The sequence of buffer cells visited by `recomputeGlobalMinMax`:
`for (s < series.length) for (i < capacity) buffers[s][i]`. -/
def scanCells (st : RingStore) : List Val :=
  (List.range st.series.length).flatMap fun s =>
    (List.range st.capacity).map fun i => (st.buffers.getD s []).getD i none

/-- `recomputeGlobalMinMax()`: rebuild the running min/max from scratch. -/
def recomputeGlobalMinMax (st : RingStore) : RingStore :=
  { st with
    globalMin := st.scanCells.foldl updMin none
    globalMax := st.scanCells.foldl updMax none }

/-- `setViewPortCursor(position)`: round, then clamp into
`[0, max(0, min(writeIndex-1, capacity-1))]`. -/
def setViewPortCursor (st : RingStore) (position : ℚ) : RingStore :=
  let rounded := jsRound position
  let maxCursor : ℤ := max 0 (min ((st.writeIndex : ℤ) - 1) ((st.capacity : ℤ) - 1))
  { st with viewPortCursor := min (max 0 rounded) maxCursor }

/-- `adjustViewPortCursor(delta)`. -/
def adjustViewPortCursor (st : RingStore) (delta : ℚ) : RingStore :=
  st.setViewPortCursor ((st.viewPortCursor : ℚ) + delta)

/-- `setViewPortSize(size)`: clamp below capacity, then at least 10. -/
def setViewPortSize (st : RingStore) (size : ℤ) : RingStore :=
  { st with viewPortSize := max 10 (min size (st.capacity : ℤ)) }

/-- `setFrozen(frozen)`: on unfreeze, snap the cursor to the latest index. -/
def setFrozen (st : RingStore) (b : Bool) : RingStore :=
  let st1 := { st with frozen := b }
  if b then st1 else st1.setViewPortCursor ((st1.writeIndex : ℚ) - 1)

/-- The buffer-reallocation phase of `setCapacity`: allocate NaN-filled
buffers at the new capacity, copy the most recent `keepCount` samples to the
front in chronological order, and recompute the range tracker. -/
def resizeCore (st : RingStore) (capacity : ℕ) : RingStore :=
  let keepCount := min st.retainedLength capacity
  let srcStart := st.writeIndex - keepCount
  recomputeGlobalMinMax
    { st with
      buffers := (List.range st.buffers.length).map fun s =>
        (List.range capacity).map fun j =>
          if j < keepCount ∧ s < st.series.length then
            (st.buffers.getD s []).getD ((srcStart + j) % st.capacity) none
          else none
      times := (List.range capacity).map fun j =>
        if j < keepCount then st.times.getD ((srcStart + j) % st.capacity) none else none
      capacity := capacity
      writeIndex := keepCount }

/-- `setCapacity(capacity)`: no-op when unchanged, otherwise reallocate and
copy (`resizeCore`), clamp the viewport size to the new capacity, and
re-validate the cursor (follow the newest sample unless frozen). -/
def setCapacity (st : RingStore) (capacity : ℕ) : RingStore :=
  if capacity = st.capacity then st
  else
    let st2 := { st.resizeCore capacity with
      viewPortSize := min (st.resizeCore capacity).viewPortSize (capacity : ℤ) }
    if st2.frozen then st2.setViewPortCursor (st2.viewPortCursor : ℚ)
    else st2.setViewPortCursor ((st2.writeIndex : ℚ) - 1)

/-- `zoomByFactor(factor)`: clamp the factor to `[0.5, 2]`, round the desired
size, clamp it to `[10, capacity]`, and store it via `setViewPortSize`. -/
def zoomByFactor (st : RingStore) (factor : ℚ) : RingStore :=
  let currentLen := st.viewPortSize
  let clampedFactor := max (1/2) (min 2 factor)
  let desired := jsRound ((currentLen : ℚ) / clampedFactor)
  let newWindowSize := max 10 (min (st.capacity : ℤ) desired)
  st.setViewPortSize newWindowSize

/-- The viewport size actually used by `getViewPortData`
(`Math.min(this.viewPortSize, this.capacity)`). -/
def vpEffSize (st : RingStore) : ℤ := min st.viewPortSize (st.capacity : ℤ)

/-- `startPosition = endPosition - (viewPortSize - 1)`. -/
def vpStart (st : RingStore) : ℤ := st.viewPortCursor - (st.vpEffSize - 1)

/-- The length of the materialized window arrays. -/
def vpLen (st : RingStore) : ℕ := (st.viewPortCursor - st.vpStart + 1).toNat

/-- The guard deciding whether total index `si` has been written and not yet
overwritten:
`si ≥ 0 && si < writeIndex && (writeIndex ≤ capacity || si ≥ writeIndex - capacity)`. -/
def sampleOk (st : RingStore) (si : ℤ) : Bool :=
  decide (0 ≤ si) && decide (si < (st.writeIndex : ℤ)) &&
    (decide ((st.writeIndex : ℤ) ≤ (st.capacity : ℤ)) ||
      decide ((st.writeIndex : ℤ) - (st.capacity : ℤ) ≤ si))

/-- The value copied into the window for channel `k` at total index `si`
(NaN when the sample is missing or overwritten). -/
def sampleVal (st : RingStore) (k : ℕ) (si : ℤ) : Val :=
  if st.sampleOk si then (st.buffers.getD k []).getD (si.toNat % st.capacity) none else none

/-- The timestamp copied into the window at total index `si`. -/
def sampleTime (st : RingStore) (si : ℤ) : Val :=
  if st.sampleOk si then st.times.getD (si.toNat % st.capacity) none else none

/-- The per-channel window arrays (`seriesViews`). -/
def vpSeriesViews (st : RingStore) : List (List Val) :=
  if st.viewPortCursor < st.vpStart then
    List.replicate st.buffers.length []
  else
    (List.range st.series.length).map fun k =>
      (List.range st.vpLen).map fun (i : ℕ) => st.sampleVal k (st.vpStart + (i : ℤ))

/-- The window timestamp array (`timesView`). -/
def vpTimesView (st : RingStore) : List Val :=
  if st.viewPortCursor < st.vpStart then []
  else (List.range st.vpLen).map fun (i : ℕ) => st.sampleTime (st.vpStart + (i : ℤ))

/-- The raw window minimum: fold of the finite-value tracker over every entry
of every window array, `+Infinity` start. -/
def vpRawMin (st : RingStore) : Option ℚ :=
  st.vpSeriesViews.foldl (fun acc arr => arr.foldl updMin acc) none

/-- The raw window maximum. -/
def vpRawMax (st : RingStore) : Option ℚ :=
  st.vpSeriesViews.foldl (fun acc arr => arr.foldl updMax acc) none

/-- The published y-range: `[-1,1]` when no finite window value exists,
symmetric `max(1, |max| * 0.1)` padding when the extremes coincide. -/
def vpYRange (st : RingStore) : ℚ × ℚ :=
  match st.vpRawMin, st.vpRawMax with
  | some mn, some mx =>
    if mx = mn then
      let pad := max 1 (|mx| * (1/10))
      (mn - pad, mx + pad)
    else (mn, mx)
  | _, _ => (-1, 1)

end RingStore

/-- The snapshot returned by `getViewPortData()`. -/
structure ViewPortData where
  seriesData : List (List Val)
  timesView : List Val
  yMin : ℚ
  yMax : ℚ
  viewPortCursor : ℤ
  viewPortSize : ℤ
  firstTimestamp : Option ℚ
deriving DecidableEq, Repr

/-- `getViewPortData()` (the memo cache is a pure optimization and is omitted:
the function is deterministic in the state). -/
def RingStore.getViewPortData (st : RingStore) : ViewPortData :=
  { seriesData := st.vpSeriesViews
    timesView := st.vpTimesView
    yMin := st.vpYRange.1
    yMax := st.vpYRange.2
    viewPortCursor := st.viewPortCursor
    viewPortSize := st.viewPortSize
    firstTimestamp := st.firstTimestamp }

/-- Appending a whole list of rows (a pure ingestion run; timestamps fixed to
`0` where irrelevant). -/
def RingStore.appendAll (st : RingStore) (rows : List (List Val)) : RingStore :=
  rows.foldl (fun s r => s.append 0 r) st

/-- A store built by resetting to `names` and then appending `rows`. -/
def mkTrace (cap : ℕ) (vps : ℤ) (names : List String) (rows : List (List Val)) : RingStore :=
  (RingStore.reset cap vps names).appendAll rows

/-- The store mutations reachable from the public interface. -/
inductive Op where
  | append (now : ℚ) (values : List Val)
  | setSeries (names : List String)
  | setCapacity (n : ℕ)
  | setViewPortCursor (pos : ℚ)
  | adjustViewPortCursor (delta : ℚ)
  | setViewPortSize (n : ℤ)
  | setFrozen (b : Bool)
  | zoomByFactor (f : ℚ)

/-- Interpretation of one interface call. -/
def applyOp (st : RingStore) : Op → RingStore
  | .append now values => st.append now values
  | .setSeries names => st.setSeries names
  | .setCapacity n => st.setCapacity n
  | .setViewPortCursor pos => st.setViewPortCursor pos
  | .adjustViewPortCursor d => st.adjustViewPortCursor d
  | .setViewPortSize n => st.setViewPortSize n
  | .setFrozen b => st.setFrozen b
  | .zoomByFactor f => st.zoomByFactor f

/-- States reachable from a freshly constructed store. -/
inductive Reachable : RingStore → Prop
  | init (cap : ℕ) (vps : ℤ) : Reachable (RingStore.init cap vps)
  | step (st : RingStore) (op : Op) : Reachable st → Reachable (applyOp st op)

end WSP

namespace WSP

/-! ### Basic list access lemmas -/

lemma getD_range_map {α : Type*} (f : ℕ → α) (n i : ℕ) (d : α) :
    ((List.range n).map f).getD i d = if i < n then f i else d := by
  rcases lt_or_ge i n with h | h
  · rw [List.getD_eq_getElem?_getD, List.getElem?_map, List.getElem?_range h]
    simp [h]
  · rw [List.getD_eq_getElem?_getD, List.getElem?_eq_none (by simpa using h)]
    simp [Nat.not_lt.mpr h]

lemma getD_set_self {α : Type*} (l : List α) (i : ℕ) (v d : α) (h : i < l.length) :
    (l.set i v).getD i d = v := by
  rw [List.getD_eq_getElem?_getD, List.getElem?_set]
  simp [h]

lemma getD_set_ne {α : Type*} (l : List α) (i j : ℕ) (v d : α) (h : i ≠ j) :
    (l.set i v).getD j d = l.getD j d := by
  rw [List.getD_eq_getElem?_getD, List.getElem?_set, List.getD_eq_getElem?_getD]
  simp [h]

lemma getD_replicate {α : Type*} (n i : ℕ) (a d : α) :
    (List.replicate n a).getD i d = if i < n then a else d := by
  rw [List.getD_eq_getElem?_getD, List.getElem?_replicate]
  split <;> simp

/-- Two distinct total indices less than one ring revolution apart occupy
distinct ring slots. -/
lemma mod_ne_of_between {cap t n : ℕ} (h1 : t < n) (h2 : n < t + cap) :
    n % cap ≠ t % cap := by
  intro h
  have hmod : t ≡ n [MOD cap] := h.symm
  have hdvd : (cap : ℤ) ∣ (n : ℤ) - (t : ℤ) := (Nat.modEq_iff_dvd).1 hmod
  have hle := Int.le_of_dvd (by omega) hdvd
  omega

/-! ### Field-preservation lemmas for the store operations -/

namespace RingStore

lemma adjustSeriesCount_eta (st : RingStore) (n : ℕ) :
    (st.adjustSeriesCount n).times = st.times
    ∧ (st.adjustSeriesCount n).capacity = st.capacity
    ∧ (st.adjustSeriesCount n).writeIndex = st.writeIndex
    ∧ (st.adjustSeriesCount n).viewPortCursor = st.viewPortCursor
    ∧ (st.adjustSeriesCount n).viewPortSize = st.viewPortSize
    ∧ (st.adjustSeriesCount n).frozen = st.frozen
    ∧ (st.adjustSeriesCount n).globalMin = st.globalMin
    ∧ (st.adjustSeriesCount n).globalMax = st.globalMax
    ∧ (st.adjustSeriesCount n).firstTimestamp = st.firstTimestamp := by
  unfold adjustSeriesCount
  split
  · exact ⟨rfl, rfl, rfl, rfl, rfl, rfl, rfl, rfl, rfl⟩
  · split
    · exact ⟨rfl, rfl, rfl, rfl, rfl, rfl, rfl, rfl, rfl⟩
    · exact ⟨rfl, rfl, rfl, rfl, rfl, rfl, rfl, rfl, rfl⟩

lemma append_nil (st : RingStore) (now : ℚ) : st.append now [] = st := rfl

lemma reconcileForAppend_eta (st : RingStore) (m : ℕ) :
    (st.reconcileForAppend m).times = st.times
    ∧ (st.reconcileForAppend m).capacity = st.capacity
    ∧ (st.reconcileForAppend m).writeIndex = st.writeIndex
    ∧ (st.reconcileForAppend m).viewPortCursor = st.viewPortCursor
    ∧ (st.reconcileForAppend m).viewPortSize = st.viewPortSize
    ∧ (st.reconcileForAppend m).frozen = st.frozen
    ∧ (st.reconcileForAppend m).globalMin = st.globalMin
    ∧ (st.reconcileForAppend m).globalMax = st.globalMax
    ∧ (st.reconcileForAppend m).firstTimestamp = st.firstTimestamp := by
  unfold reconcileForAppend
  split
  · exact st.adjustSeriesCount_eta m
  · exact ⟨rfl, rfl, rfl, rfl, rfl, rfl, rfl, rfl, rfl⟩

lemma append_pos (st : RingStore) (now : ℚ) (values : List Val) (h : ¬ values.length = 0) :
    st.append now values = (st.reconcileForAppend values.length).writeSample now values := by
  unfold append
  rw [if_neg h]

lemma append_eta (st : RingStore) (now : ℚ) (values : List Val) (h : values ≠ []) :
    (st.append now values).capacity = st.capacity
    ∧ (st.append now values).frozen = st.frozen
    ∧ (st.append now values).viewPortSize = st.viewPortSize
    ∧ (st.append now values).writeIndex = st.writeIndex + 1
    ∧ (st.append now values).firstTimestamp = some (st.firstTimestamp.getD now)
    ∧ (st.append now values).viewPortCursor
        = (if st.frozen then st.viewPortCursor else (st.writeIndex : ℤ)) := by
  have hlen : ¬ values.length = 0 := by simpa using h
  rw [st.append_pos now values hlen]
  obtain ⟨-, h2, h3, h4, h5, h6, -, -, h9⟩ := st.reconcileForAppend_eta values.length
  unfold writeSample
  refine ⟨?_, ?_, ?_, ?_, ?_, ?_⟩ <;> simp only [h2, h3, h4, h5, h6, h9]

lemma setViewPortCursor_eta (st : RingStore) (p : ℚ) :
    (st.setViewPortCursor p).series = st.series
    ∧ (st.setViewPortCursor p).buffers = st.buffers
    ∧ (st.setViewPortCursor p).times = st.times
    ∧ (st.setViewPortCursor p).capacity = st.capacity
    ∧ (st.setViewPortCursor p).writeIndex = st.writeIndex
    ∧ (st.setViewPortCursor p).viewPortSize = st.viewPortSize
    ∧ (st.setViewPortCursor p).frozen = st.frozen
    ∧ (st.setViewPortCursor p).globalMin = st.globalMin
    ∧ (st.setViewPortCursor p).globalMax = st.globalMax
    ∧ (st.setViewPortCursor p).firstTimestamp = st.firstTimestamp :=
  ⟨rfl, rfl, rfl, rfl, rfl, rfl, rfl, rfl, rfl, rfl⟩

lemma setCapacity_firstTimestamp (st : RingStore) (n : ℕ) :
    (st.setCapacity n).firstTimestamp = st.firstTimestamp := by
  unfold setCapacity resizeCore
  split
  · rfl
  · simp only [recomputeGlobalMinMax, setViewPortCursor]
    split <;> rfl

lemma setFrozen_firstTimestamp (st : RingStore) (b : Bool) :
    (st.setFrozen b).firstTimestamp = st.firstTimestamp := by
  unfold setFrozen
  simp only [setViewPortCursor]
  split <;> rfl

end RingStore

end WSP

namespace WSP

/-! ### Properties of the incremental min/max tracker -/

lemma updMin_some_some (m v : ℚ) : updMin (some m) (some v) = some (min m v) := by
  simp only [updMin]
  rcases lt_or_ge v m with h | h
  · rw [if_pos h, min_eq_right (le_of_lt h)]
  · rw [if_neg (not_lt.2 h), min_eq_left h]

lemma updMax_some_some (m v : ℚ) : updMax (some m) (some v) = some (max m v) := by
  simp only [updMax]
  rcases lt_or_ge m v with h | h
  · rw [if_pos h, max_eq_right (le_of_lt h)]
  · rw [if_neg (not_lt.2 h), max_eq_left h]

lemma foldl_updMin_some (l : List Val) :
    ∀ m : ℚ, ∃ m', l.foldl updMin (some m) = some m' ∧ m' ≤ m := by
  induction l with
  | nil => exact fun m => ⟨m, rfl, le_refl m⟩
  | cons v t ih =>
    intro m
    cases v with
    | none => simpa [updMin] using ih m
    | some q =>
      simp only [List.foldl_cons, updMin_some_some]
      obtain ⟨m', h1, h2⟩ := ih (min m q)
      exact ⟨m', h1, le_trans h2 (min_le_left m q)⟩

lemma foldl_updMax_some (l : List Val) :
    ∀ m : ℚ, ∃ m', l.foldl updMax (some m) = some m' ∧ m ≤ m' := by
  induction l with
  | nil => exact fun m => ⟨m, rfl, le_refl m⟩
  | cons v t ih =>
    intro m
    cases v with
    | none => simpa [updMax] using ih m
    | some q =>
      simp only [List.foldl_cons, updMax_some_some]
      obtain ⟨m', h1, h2⟩ := ih (max m q)
      exact ⟨m', h1, le_trans (le_max_left m q) h2⟩

lemma foldl_updMin_mem (l : List Val) :
    ∀ (acc : Option ℚ) (q : ℚ), some q ∈ l →
      ∃ m', l.foldl updMin acc = some m' ∧ m' ≤ q := by
  induction l with
  | nil => intro acc q h; simp at h
  | cons v t ih =>
    intro acc q h
    rcases List.mem_cons.1 h with h | h
    · cases acc with
      | none =>
        simp only [List.foldl_cons, ← h, updMin]
        exact foldl_updMin_some t q
      | some m =>
        simp only [List.foldl_cons, ← h, updMin_some_some]
        obtain ⟨m', h1, h2⟩ := foldl_updMin_some t (min m q)
        exact ⟨m', h1, le_trans h2 (min_le_right m q)⟩
    · simp only [List.foldl_cons]
      exact ih (updMin acc v) q h

lemma foldl_updMax_mem (l : List Val) :
    ∀ (acc : Option ℚ) (q : ℚ), some q ∈ l →
      ∃ m', l.foldl updMax acc = some m' ∧ q ≤ m' := by
  induction l with
  | nil => intro acc q h; simp at h
  | cons v t ih =>
    intro acc q h
    rcases List.mem_cons.1 h with h | h
    · cases acc with
      | none =>
        simp only [List.foldl_cons, ← h, updMax]
        exact foldl_updMax_some t q
      | some m =>
        simp only [List.foldl_cons, ← h, updMax_some_some]
        obtain ⟨m', h1, h2⟩ := foldl_updMax_some t (max m q)
        exact ⟨m', h1, le_trans (le_max_right m q) h2⟩
    · simp only [List.foldl_cons]
      exact ih (updMax acc v) q h

/-- The pairing invariant between the running minimum and maximum: either both
are still at their infinite initial value, or both are finite and ordered. -/
def MinMaxRel (a b : Option ℚ) : Prop :=
  (a = none ∧ b = none) ∨ ∃ mn mx, a = some mn ∧ b = some mx ∧ mn ≤ mx

lemma minMaxRel_none : MinMaxRel none none := Or.inl ⟨rfl, rfl⟩

lemma MinMaxRel.step {a b : Option ℚ} (h : MinMaxRel a b) (v : Val) :
    MinMaxRel (updMin a v) (updMax b v) := by
  cases v with
  | none => simpa [updMin, updMax] using h
  | some q =>
    rcases h with ⟨ha, hb⟩ | ⟨mn, mx, ha, hb, hle⟩
    · subst ha; subst hb
      exact Or.inr ⟨q, q, rfl, rfl, le_refl q⟩
    · subst ha; subst hb
      rw [updMin_some_some, updMax_some_some]
      exact Or.inr ⟨_, _, rfl, rfl,
        le_trans (min_le_left mn q) (le_trans hle (le_max_left mx q))⟩

lemma minMaxRel_foldl (l : List Val) :
    ∀ {a b : Option ℚ}, MinMaxRel a b →
      MinMaxRel (l.foldl updMin a) (l.foldl updMax b) := by
  induction l with
  | nil => exact fun h => h
  | cons v t ih =>
    intro a b h
    simp only [List.foldl_cons]
    exact ih (h.step v)

lemma minMaxRel_foldl_nested (ll : List (List Val)) :
    ∀ {a b : Option ℚ}, MinMaxRel a b →
      MinMaxRel (ll.foldl (fun acc arr => arr.foldl updMin acc) a)
        (ll.foldl (fun acc arr => arr.foldl updMax acc) b) := by
  induction ll with
  | nil => exact fun h => h
  | cons arr t ih =>
    intro a b h
    simp only [List.foldl_cons]
    exact ih (minMaxRel_foldl arr h)

lemma vpRaw_rel (st : RingStore) : MinMaxRel st.vpRawMin st.vpRawMax :=
  minMaxRel_foldl_nested _ minMaxRel_none

/-- The published y-range of any snapshot is a nonempty open interval. -/
lemma vpYRange_lt (st : RingStore) : st.vpYRange.1 < st.vpYRange.2 := by
  unfold RingStore.vpYRange
  rcases vpRaw_rel st with ⟨h1, h2⟩ | ⟨mn, mx, h1, h2, hle⟩ <;> rw [h1, h2]
  · norm_num
  · by_cases heq : mx = mn
    · simp only [if_pos heq]
      have hpad : (1 : ℚ) ≤ max 1 (|mx| * (1/10)) := le_max_left _ _
      subst heq
      linarith
    · simp only [if_neg heq]
      exact lt_of_le_of_ne hle fun h => heq h.symm

end WSP

namespace WSP

/-! ### Evaluation lemmas for `jsRound` (the kernel cannot reduce `Rat`
normalization, so rounding at concrete inputs is computed symbolically) -/

lemma jsRound_intCast (n : ℤ) : jsRound (n : ℚ) = n := by
  unfold jsRound
  rw [add_comm, Int.floor_add_int]
  norm_num

lemma jsRound_natCast (n : ℕ) : jsRound (n : ℚ) = n := by
  have h := jsRound_intCast (n : ℤ)
  rwa [Int.cast_natCast] at h

lemma jsRound_natCast_sub_one (n : ℕ) : jsRound ((n : ℚ) - 1) = (n : ℤ) - 1 := by
  unfold jsRound
  have h : ((n : ℚ) - 1) + 1/2 = (((n : ℤ) - 1 : ℤ) : ℚ) + 1/2 := by push_cast; ring
  rw [h, add_comm, Int.floor_add_int]
  norm_num

/-! ### C3 — cursor rounding and clamping -/

/-- **C3** (amended): `setViewPortCursor` rounds the input position to the
nearest integer and clamps it into `[0, max 0 (min (total-1) (capacity-1))]`:
the upper bound is capped by `capacity - 1` as well, not by `total - 1`
alone. -/
theorem c3_cursor_round_clamp (st : RingStore) (pos : ℚ) :
    (st.setViewPortCursor pos).viewPortCursor
        = min (max 0 (jsRound pos))
            (max 0 (min ((st.writeIndex : ℤ) - 1) ((st.capacity : ℤ) - 1)))
      ∧ 0 ≤ (st.setViewPortCursor pos).viewPortCursor
      ∧ (st.setViewPortCursor pos).viewPortCursor
          ≤ max 0 (min ((st.writeIndex : ℤ) - 1) ((st.capacity : ℤ) - 1))
      ∧ (0 ≤ jsRound pos → jsRound pos ≤ (st.writeIndex : ℤ) - 1 →
          jsRound pos ≤ (st.capacity : ℤ) - 1 →
          (st.setViewPortCursor pos).viewPortCursor = jsRound pos) := by
  refine ⟨rfl, ?_, ?_, ?_⟩ <;> simp only [RingStore.setViewPortCursor] <;> omega

/-- A store with 5 appends into capacity 4 (so `total = 5 > capacity`). -/
def c3Store : RingStore :=
  (RingStore.reset 4 10 ["S1"]).appendAll (List.replicate 5 [some 1])

/-- **C3** (counterexample to the claim as stated): with `total = 5` and
`capacity = 4`, the claim says `setCursor 4` stores `4` (the clamp of `4` into
`[0, total-1] = [0,4]`), but the code stores `3`. -/
theorem c3_counterexample :
    c3Store.writeIndex = 5
    ∧ (c3Store.setViewPortCursor ((4 : ℤ) : ℚ)).viewPortCursor = 3
    ∧ min (max 0 (jsRound ((4 : ℤ) : ℚ))) (max 0 ((c3Store.writeIndex : ℤ) - 1)) = 4 := by
  have h5 : c3Store.writeIndex = 5 := by decide
  have h4 : c3Store.capacity = 4 := by decide
  refine ⟨h5, ?_, ?_⟩ <;>
    simp only [RingStore.setViewPortCursor, jsRound_intCast, h5, h4] <;> decide

/-- A store with 3 appends into capacity 4, used to witness C3. -/
def c3WitStore : RingStore :=
  (RingStore.reset 4 10 ["S1"]).appendAll (List.replicate 3 [some 1])

/-- Witness for `c3_cursor_round_clamp` at position `2`. -/
theorem c3_cursor_round_clamp_witness :
    0 ≤ jsRound ((2 : ℤ) : ℚ)
    ∧ jsRound ((2 : ℤ) : ℚ) ≤ (c3WitStore.writeIndex : ℤ) - 1
    ∧ jsRound ((2 : ℤ) : ℚ) ≤ (c3WitStore.capacity : ℤ) - 1
    ∧ (c3WitStore.setViewPortCursor ((2 : ℤ) : ℚ)).viewPortCursor = jsRound ((2 : ℤ) : ℚ) :=
  have h3 : c3WitStore.writeIndex = 3 := by decide
  have h4 : c3WitStore.capacity = 4 := by decide
  have e2 : jsRound ((2 : ℤ) : ℚ) = 2 := jsRound_intCast 2
  ⟨by rw [e2]; norm_num, by rw [e2, h3]; norm_num, by rw [e2, h4]; norm_num,
    (c3_cursor_round_clamp c3WitStore ((2 : ℤ) : ℚ)).2.2.2
      (by rw [e2]; norm_num) (by rw [e2, h3]; norm_num) (by rw [e2, h4]; norm_num)⟩

/-! ### C8 — viewport size clamping -/

/-- **C8** (amended): `setViewPortSize n` stores `max 10 (min n capacity)`:
the bound is the capacity alone, the retained data length plays no role. -/
theorem c8_size_clamp (st : RingStore) (n : ℤ) :
    (st.setViewPortSize n).viewPortSize = max 10 (min n (st.capacity : ℤ))
    ∧ 10 ≤ (st.setViewPortSize n).viewPortSize
    ∧ (10 ≤ n → n ≤ (st.capacity : ℤ) → (st.setViewPortSize n).viewPortSize = n) := by
  refine ⟨rfl, ?_, ?_⟩ <;> simp only [RingStore.setViewPortSize] <;> omega

/-- **C8** (counterexample to the claim as stated): on a fresh store with
capacity 100 and no data (retained length 0), the claim's clamp
`[10, min(capacity, retainedLength)]` would force `setSize 50` to store `10`,
but the code stores `50`. -/
theorem c8_counterexample :
    (RingStore.reset 100 200 ["S1"]).retainedLength = 0
    ∧ ((RingStore.reset 100 200 ["S1"]).setViewPortSize 50).viewPortSize = 50
    ∧ max 10 (min 50 (min ((RingStore.reset 100 200 ["S1"]).capacity : ℤ)
        ((RingStore.reset 100 200 ["S1"]).retainedLength : ℤ))) = 10 := by
  decide

/-- Witness for `c8_size_clamp` at `n = 50` on a capacity-100 store. -/
theorem c8_size_clamp_witness :
    (10 : ℤ) ≤ 50 ∧ (50 : ℤ) ≤ ((RingStore.reset 100 200 ["S1"]).capacity : ℤ)
    ∧ ((RingStore.reset 100 200 ["S1"]).setViewPortSize 50).viewPortSize = 50 :=
  ⟨by norm_num, by decide,
    (c8_size_clamp (RingStore.reset 100 200 ["S1"]) 50).2.2 (by norm_num) (by decide)⟩

/-! ### C10 — lifecycle of `firstTimestamp` -/

/-- **C10**: `firstTimestamp` is `null` on construction and after every
reset/`setSeries`; a first (non-empty) append sets it to that append's receipt
time; every later append keeps it; `setCapacity` and all
viewport/zoom/freeze operations keep it; only `setSeries` (via `reset`)
returns it to `null`. -/
theorem c10_first_timestamp :
    (∀ cap vps, (RingStore.init cap vps).firstTimestamp = none)
    ∧ (∀ cap vps names, (RingStore.reset cap vps names).firstTimestamp = none)
    ∧ (∀ st : RingStore, ∀ names, (st.setSeries names).firstTimestamp = none)
    ∧ (∀ st : RingStore, ∀ now values, values ≠ [] → st.firstTimestamp = none →
        (st.append now values).firstTimestamp = some now)
    ∧ (∀ st : RingStore, ∀ now values t, st.firstTimestamp = some t →
        (st.append now values).firstTimestamp = some t)
    ∧ (∀ st : RingStore, ∀ now, (st.append now []).firstTimestamp = st.firstTimestamp)
    ∧ (∀ st : RingStore, ∀ n, (st.setCapacity n).firstTimestamp = st.firstTimestamp)
    ∧ (∀ st : RingStore, ∀ p, (st.setViewPortCursor p).firstTimestamp = st.firstTimestamp)
    ∧ (∀ st : RingStore, ∀ d, (st.adjustViewPortCursor d).firstTimestamp = st.firstTimestamp)
    ∧ (∀ st : RingStore, ∀ n, (st.setViewPortSize n).firstTimestamp = st.firstTimestamp)
    ∧ (∀ st : RingStore, ∀ b, (st.setFrozen b).firstTimestamp = st.firstTimestamp)
    ∧ (∀ st : RingStore, ∀ f, (st.zoomByFactor f).firstTimestamp = st.firstTimestamp) := by
  refine ⟨fun _ _ => rfl, fun _ _ _ => rfl, fun _ _ => rfl, ?_, ?_, fun _ _ => rfl,
    fun st n => st.setCapacity_firstTimestamp n, fun _ _ => rfl, fun _ _ => rfl,
    fun _ _ => rfl, fun st b => st.setFrozen_firstTimestamp b, fun _ _ => rfl⟩
  · intro st now values hv hft
    rw [(st.append_eta now values hv).2.2.2.2.1, hft]
    rfl
  · intro st now values t hft
    rcases eq_or_ne values [] with rfl | hv
    · rw [st.append_nil now, hft]
    · rw [(st.append_eta now values hv).2.2.2.2.1, hft]
      rfl

/-- Witness for `c10_first_timestamp`: the first append pins the timestamp and
a second append keeps it. -/
theorem c10_first_timestamp_witness :
    ((RingStore.reset 4 10 ["S1"]).append 7 [some 1]).firstTimestamp = some 7
    ∧ (((RingStore.reset 4 10 ["S1"]).append 7 [some 1]).append 9 [some 2]).firstTimestamp
        = some 7 :=
  ⟨c10_first_timestamp.2.2.2.1 (RingStore.reset 4 10 ["S1"]) 7 [some 1] (by decide) (by decide),
    c10_first_timestamp.2.2.2.2.1 ((RingStore.reset 4 10 ["S1"]).append 7 [some 1]) 9 [some 2] 7
      (c10_first_timestamp.2.2.2.1 (RingStore.reset 4 10 ["S1"]) 7 [some 1] (by decide) (by decide))⟩

end WSP

namespace WSP

/-! ### C4 — freeze semantics -/

/-- A whole ingestion run: a list of `(receipt time, values)` samples fed to
`append` in order. -/
def RingStore.appendSamples (st : RingStore) (samples : List (ℚ × List Val)) : RingStore :=
  samples.foldl (fun s r => s.append r.1 r.2) st

lemma RingStore.append_frozen_eq (st : RingStore) (now : ℚ) (values : List Val) :
    (st.append now values).frozen = st.frozen := by
  rcases eq_or_ne values [] with rfl | hv
  · rfl
  · exact (st.append_eta now values hv).2.1

lemma RingStore.append_cursor_of_frozen (st : RingStore) (now : ℚ) (values : List Val)
    (h : st.frozen = true) :
    (st.append now values).viewPortCursor = st.viewPortCursor := by
  rcases eq_or_ne values [] with rfl | hv
  · rfl
  · rw [(st.append_eta now values hv).2.2.2.2.2, h]
    rfl

lemma RingStore.setFrozen_false_cursor (st : RingStore) :
    (st.setFrozen false).viewPortCursor
      = max 0 (min ((st.writeIndex : ℤ) - 1) ((st.capacity : ℤ) - 1)) := by
  simp only [RingStore.setFrozen, RingStore.setViewPortCursor, jsRound_natCast_sub_one,
    Bool.false_eq_true, if_false]
  omega

/-- **C4** (amended): while the viewport is frozen, any number of `append`
calls leaves the cursor unchanged; `setFrozen false` snaps the cursor to
`max 0 (min (total-1) (capacity-1))` — capped by `capacity-1`, so after ring
wraparound the cursor lands on `capacity-1` rather than `total-1`. -/
theorem c4_freeze_cursor :
    (∀ (st : RingStore) (samples : List (ℚ × List Val)), st.frozen = true →
      (st.appendSamples samples).viewPortCursor = st.viewPortCursor
        ∧ (st.appendSamples samples).frozen = true)
    ∧ (∀ st : RingStore, (st.setFrozen false).viewPortCursor
        = max 0 (min ((st.writeIndex : ℤ) - 1) ((st.capacity : ℤ) - 1))) := by
  constructor
  · intro st samples
    induction samples generalizing st with
    | nil => exact fun h => ⟨rfl, h⟩
    | cons r t ih =>
      intro h
      have hstep := st.append_cursor_of_frozen r.1 r.2 h
      have hfr : (st.append r.1 r.2).frozen = true := by
        rw [st.append_frozen_eq r.1 r.2]; exact h
      obtain ⟨h1, h2⟩ := ih (st.append r.1 r.2) hfr
      exact ⟨by rw [RingStore.appendSamples, List.foldl_cons, ← RingStore.appendSamples, h1, hstep],
        by rw [RingStore.appendSamples, List.foldl_cons, ← RingStore.appendSamples, h2]⟩
  · exact fun st => st.setFrozen_false_cursor

/-- A frozen store that keeps ingesting past its capacity. -/
def c4Store : RingStore :=
  ((RingStore.reset 4 10 ["S1"]).setFrozen true).appendSamples
    (List.replicate 5 (0, [some 1]))

/-- **C4** (counterexample to the claim as stated): after 5 appends into a
frozen capacity-4 store, unfreezing sets the cursor to `3`, not to
`total - 1 = 4` as claimed. -/
theorem c4_counterexample :
    c4Store.writeIndex = 5
    ∧ (c4Store.setFrozen false).viewPortCursor = 3
    ∧ (c4Store.writeIndex : ℤ) - 1 = 4 := by
  have h5 : c4Store.writeIndex = 5 := by decide
  have h4 : c4Store.capacity = 4 := by decide
  refine ⟨h5, ?_, by rw [h5]; norm_num⟩
  rw [c4Store.setFrozen_false_cursor, h5, h4]
  norm_num

/-- Witness for `c4_freeze_cursor`: two appends on a frozen store keep the
cursor at 0. -/
theorem c4_freeze_cursor_witness :
    ((RingStore.reset 4 10 ["S1"]).setFrozen true).frozen = true
    ∧ (((RingStore.reset 4 10 ["S1"]).setFrozen true).appendSamples
        [(0, [some 1]), (0, [some 2])]).viewPortCursor
      = ((RingStore.reset 4 10 ["S1"]).setFrozen true).viewPortCursor :=
  ⟨by decide,
    (c4_freeze_cursor.1 ((RingStore.reset 4 10 ["S1"]).setFrozen true)
      [(0, [some 1]), (0, [some 2])] (by decide)).1⟩

end WSP

namespace WSP

/-! ### C2 — window length, padding and the empty-store y-range -/

lemma RingStore.vpLen_eq (st : RingStore) : st.vpLen = st.vpEffSize.toNat := by
  simp only [RingStore.vpLen, RingStore.vpStart]
  omega

lemma RingStore.vpZeroBranch_iff (st : RingStore) :
    st.viewPortCursor < st.vpStart ↔ st.vpEffSize ≤ 0 := by
  simp only [RingStore.vpStart]
  omega

lemma RingStore.sampleOk_of_empty (st : RingStore) (h : st.writeIndex = 0) (si : ℤ) :
    st.sampleOk si = false := by
  simp only [RingStore.sampleOk, h, Nat.cast_zero]
  by_cases h0 : (0 : ℤ) ≤ si
  · simp [not_lt.2 h0]
  · simp [h0]

lemma updMin_none (acc : Option ℚ) : updMin acc none = acc := by
  cases acc <;> rfl

lemma updMax_none (acc : Option ℚ) : updMax acc none = acc := by
  cases acc <;> rfl

lemma foldl_updMin_of_none (l : List Val) (h : ∀ v ∈ l, v = none) :
    ∀ acc, l.foldl updMin acc = acc := by
  induction l with
  | nil => intro acc; rfl
  | cons v t ih =>
    intro acc
    have hv := h v (List.mem_cons_self v t)
    rw [List.foldl_cons, hv, updMin_none]
    exact ih (fun w hw => h w (List.mem_cons_of_mem v hw)) acc

lemma foldl_updMax_of_none (l : List Val) (h : ∀ v ∈ l, v = none) :
    ∀ acc, l.foldl updMax acc = acc := by
  induction l with
  | nil => intro acc; rfl
  | cons v t ih =>
    intro acc
    have hv := h v (List.mem_cons_self v t)
    rw [List.foldl_cons, hv, updMax_none]
    exact ih (fun w hw => h w (List.mem_cons_of_mem v hw)) acc

lemma RingStore.vpSeriesViews_all_none (st : RingStore) (h : st.writeIndex = 0) :
    ∀ arr ∈ st.vpSeriesViews, ∀ v ∈ arr, v = none := by
  intro arr harr v hv
  unfold RingStore.vpSeriesViews at harr
  by_cases hb : st.viewPortCursor < st.vpStart
  · rw [if_pos hb] at harr
    rw [List.eq_of_mem_replicate harr] at hv
    simp at hv
  · rw [if_neg hb] at harr
    obtain ⟨k, -, rfl⟩ := List.mem_map.1 harr
    obtain ⟨i, -, rfl⟩ := List.mem_map.1 hv
    simp [RingStore.sampleVal, st.sampleOk_of_empty h]

lemma RingStore.vpRawMin_of_empty (st : RingStore) (h : st.writeIndex = 0) :
    st.vpRawMin = none := by
  unfold RingStore.vpRawMin
  have hall := st.vpSeriesViews_all_none h
  generalize st.vpSeriesViews = ll at hall ⊢
  induction ll with
  | nil => rfl
  | cons arr t ih =>
    rw [List.foldl_cons, foldl_updMin_of_none arr (hall arr (List.mem_cons_self arr t))]
    exact ih fun a ha => hall a (List.mem_cons_of_mem arr ha)

lemma RingStore.vpRawMax_of_empty (st : RingStore) (h : st.writeIndex = 0) :
    st.vpRawMax = none := by
  unfold RingStore.vpRawMax
  have hall := st.vpSeriesViews_all_none h
  generalize st.vpSeriesViews = ll at hall ⊢
  induction ll with
  | nil => rfl
  | cons arr t ih =>
    rw [List.foldl_cons, foldl_updMax_of_none arr (hall arr (List.mem_cons_self arr t))]
    exact ih fun a ha => hall a (List.mem_cons_of_mem arr ha)

/-- **C2** (amended): every snapshot's per-channel arrays and timestamp array
have length `(min viewPortSize capacity).toNat` — the requested window length
clamped by the capacity, so the claim's "length equal to the requested window
length" holds exactly when the viewport size is within the capacity; every
position outside retained history holds the NaN missing sentinel; on an empty
store the y-range is `[-1, 1]`. -/
theorem c2_window_length_padding (st : RingStore) :
    (∀ k, k < st.series.length →
      ((st.getViewPortData).seriesData.getD k []).length
        = (min st.viewPortSize (st.capacity : ℤ)).toNat)
    ∧ (st.getViewPortData).timesView.length = (min st.viewPortSize (st.capacity : ℤ)).toNat
    ∧ (∀ k i, k < st.series.length → i < st.vpLen → st.sampleOk (st.vpStart + i) = false →
        (((st.getViewPortData).seriesData.getD k []).getD i (some 0)) = none)
    ∧ (∀ i, i < st.vpLen → st.sampleOk (st.vpStart + i) = false →
        ((st.getViewPortData).timesView.getD i (some 0)) = none)
    ∧ (st.writeIndex = 0 →
        (st.getViewPortData).yMin = -1 ∧ (st.getViewPortData).yMax = 1) := by
  have hload : (st.getViewPortData).seriesData = st.vpSeriesViews := rfl
  have hloadT : (st.getViewPortData).timesView = st.vpTimesView := rfl
  refine ⟨?_, ?_, ?_, ?_, ?_⟩
  · intro k hk
    rw [hload]
    unfold RingStore.vpSeriesViews
    by_cases hb : st.viewPortCursor < st.vpStart
    · rw [if_pos hb, getD_replicate, ite_self]
      have heff := (st.vpZeroBranch_iff).1 hb
      simp only [RingStore.vpEffSize] at heff
      simp only [List.length_nil]
      omega
    · rw [if_neg hb, getD_range_map, if_pos hk, List.length_map, List.length_range,
        st.vpLen_eq]
      rfl
  · rw [hloadT]
    unfold RingStore.vpTimesView
    by_cases hb : st.viewPortCursor < st.vpStart
    · rw [if_pos hb]
      have heff := (st.vpZeroBranch_iff).1 hb
      simp only [RingStore.vpEffSize] at heff
      simp only [List.length_nil]
      omega
    · rw [if_neg hb, List.length_map, List.length_range, st.vpLen_eq]
      rfl
  · intro k i hk hi hok
    rw [hload]
    unfold RingStore.vpSeriesViews
    by_cases hb : st.viewPortCursor < st.vpStart
    · exfalso
      have heff := (st.vpZeroBranch_iff).1 hb
      rw [st.vpLen_eq] at hi
      omega
    · rw [if_neg hb, getD_range_map, if_pos hk, getD_range_map, if_pos hi]
      simp [RingStore.sampleVal, hok]
  · intro i hi hok
    rw [hloadT]
    unfold RingStore.vpTimesView
    by_cases hb : st.viewPortCursor < st.vpStart
    · exfalso
      have heff := (st.vpZeroBranch_iff).1 hb
      rw [st.vpLen_eq] at hi
      omega
    · rw [if_neg hb, getD_range_map, if_pos hi]
      simp [RingStore.sampleTime, hok]
  · intro h0
    have hmin := st.vpRawMin_of_empty h0
    have hmax := st.vpRawMax_of_empty h0
    constructor
    · show st.vpYRange.1 = -1
      unfold RingStore.vpYRange
      rw [hmin, hmax]
    · show st.vpYRange.2 = 1
      unfold RingStore.vpYRange
      rw [hmin, hmax]

/-- **C2** (counterexample to the claim as stated): with viewport size 10 on a
capacity-4 store (the constructor allows this directly, and `setViewPortSize`
can never store less than 10), the snapshot arrays have length 4, not the
requested 10. -/
theorem c2_counterexample :
    (RingStore.reset 4 10 ["S1"]).viewPortSize = 10
    ∧ (((RingStore.reset 4 10 ["S1"]).getViewPortData).seriesData.getD 0 []).length = 4 := by
  decide

/-- Witness for `c2_window_length_padding` on an empty store with capacity 4
and viewport size 3. -/
theorem c2_window_length_padding_witness :
    (((RingStore.reset 4 3 ["S1"]).getViewPortData).seriesData.getD 0 []).length = 3
    ∧ ((RingStore.reset 4 3 ["S1"]).getViewPortData).timesView.length = 3
    ∧ ((RingStore.reset 4 3 ["S1"]).getViewPortData).yMin = -1
    ∧ ((RingStore.reset 4 3 ["S1"]).getViewPortData).yMax = 1 :=
  ⟨((c2_window_length_padding (RingStore.reset 4 3 ["S1"])).1 0 (by decide)).trans (by decide),
    ((c2_window_length_padding (RingStore.reset 4 3 ["S1"])).2.1).trans (by decide),
    ((c2_window_length_padding (RingStore.reset 4 3 ["S1"])).2.2.2.2 (by decide)).1,
    ((c2_window_length_padding (RingStore.reset 4 3 ["S1"])).2.2.2.2 (by decide)).2⟩

end WSP

namespace WSP

/-! ### C9 — empty input and arity reconciliation -/

lemma getD_append_lt {α : Type*} (l1 l2 : List α) (k : ℕ) (d : α) (h : k < l1.length) :
    (l1 ++ l2).getD k d = l1.getD k d := by
  rw [List.getD_eq_getElem?_getD, List.getElem?_append, if_pos h, ← List.getD_eq_getElem?_getD]

lemma getD_append_ge {α : Type*} (l1 l2 : List α) (k : ℕ) (d : α) (h : l1.length ≤ k) :
    (l1 ++ l2).getD k d = l2.getD (k - l1.length) d := by
  rw [List.getD_eq_getElem?_getD, List.getElem?_append, if_neg (not_lt.2 h),
    ← List.getD_eq_getElem?_getD]

lemma getD_take_lt {α : Type*} (l : List α) (n k : ℕ) (d : α) (h : k < n) :
    (l.take n).getD k d = l.getD k d := by
  rw [List.getD_eq_getElem?_getD, List.getElem?_take, if_pos h, ← List.getD_eq_getElem?_getD]

lemma getD_range'_map {α : Type*} (f : ℕ → α) (s n k : ℕ) (d : α) (h : k < n) :
    ((List.range' s n).map f).getD k d = f (s + k) := by
  rw [List.getD_eq_getElem?_getD, List.getElem?_map, List.getElem?_range' s 1 h]
  simp

/-- Shape of the state after the arity check of `append`: both series and
buffer lists have the incoming arity, surviving channels keep their metadata
and data by index, freshly grown channels are default-named/colored over
NaN-filled buffers. -/
lemma RingStore.reconcile_state (st : RingStore) (m : ℕ)
    (hsb : st.series.length = st.buffers.length)
    (hbl : ∀ buf ∈ st.buffers, buf.length = st.capacity) :
    (st.reconcileForAppend m).series.length = m
    ∧ (st.reconcileForAppend m).buffers.length = m
    ∧ (∀ k, k < st.series.length → k < m →
        (st.reconcileForAppend m).series.getD k ⟨0, "", ""⟩ = st.series.getD k ⟨0, "", ""⟩
        ∧ (st.reconcileForAppend m).buffers.getD k [] = st.buffers.getD k [])
    ∧ (∀ k, st.series.length ≤ k → k < m →
        (st.reconcileForAppend m).series.getD k ⟨0, "", ""⟩
            = ⟨k, "S" ++ toString (k + 1), defaultColor k⟩
        ∧ (st.reconcileForAppend m).buffers.getD k [] = List.replicate st.capacity none)
    ∧ (∀ buf ∈ (st.reconcileForAppend m).buffers, buf.length = st.capacity) := by
  unfold RingStore.reconcileForAppend
  by_cases hmb : m ≠ st.buffers.length
  · rw [if_pos hmb]
    have hms : ¬ m = st.series.length := by rw [hsb]; exact hmb
    unfold RingStore.adjustSeriesCount
    rw [if_neg hms]
    by_cases hlt : st.series.length < m
    · rw [if_pos hlt]
      refine ⟨?_, ?_, ?_, ?_, ?_⟩
      · simp only [List.length_append, List.length_map, List.length_range']
        omega
      · simp only [List.length_append, List.length_replicate, ← hsb]
        omega
      · intro k hk1 hk2
        exact ⟨getD_append_lt _ _ _ _ hk1, getD_append_lt _ _ _ _ (hsb ▸ hk1)⟩
      · intro k hk1 hk2
        constructor
        · rw [getD_append_ge _ _ _ _ hk1, getD_range'_map _ _ _ _ _ (by omega)]
          have hkk : st.series.length + (k - st.series.length) = k := by omega
          rw [hkk]
        · rw [getD_append_ge _ _ _ _ (hsb ▸ hk1), getD_replicate,
            if_pos (by rw [← hsb]; omega)]
      · intro buf hbuf
        rcases List.mem_append.1 hbuf with hmem | hmem
        · exact hbl buf hmem
        · rw [List.eq_of_mem_replicate hmem]
          exact List.length_replicate _ _
    · rw [if_neg hlt]
      have hlt2 : m < st.series.length := by omega
      refine ⟨?_, ?_, ?_, ?_, ?_⟩
      · rw [List.length_take]
        omega
      · rw [List.length_take, ← hsb]
        omega
      · intro k hk1 hk2
        exact ⟨getD_take_lt _ _ _ _ hk2, getD_take_lt _ _ _ _ hk2⟩
      · intro k hk1 hk2
        exact absurd (hk1.trans_lt (hk2.trans hlt2)) (lt_irrefl _)
      · intro buf hbuf
        exact hbl buf (List.mem_of_mem_take hbuf)
  · rw [if_neg hmb]
    push_neg at hmb
    refine ⟨by rw [hsb, ← hmb], hmb.symm, fun k hk1 hk2 => ⟨rfl, rfl⟩, ?_, hbl⟩
    intro k hk1 hk2
    rw [hmb, ← hsb] at hk2
    exact absurd (hk1.trans_lt hk2) (lt_irrefl _)

/-- Field computations of the write phase of `append`. -/
lemma RingStore.writeSample_fields (st1 : RingStore) (now : ℚ) (values : List Val) :
    (st1.writeSample now values).series = st1.series
    ∧ (st1.writeSample now values).buffers.length = st1.buffers.length
    ∧ (∀ k, k < st1.buffers.length →
        (st1.writeSample now values).buffers.getD k []
          = (if k < min values.length st1.buffers.length then
              (st1.buffers.getD k []).set (st1.writeIndex % st1.capacity) (values.getD k none)
            else (st1.buffers.getD k []).set (st1.writeIndex % st1.capacity) none)) := by
  refine ⟨rfl, ?_, ?_⟩
  · show ((List.range st1.buffers.length).map _).length = _
    rw [List.length_map, List.length_range]
  · intro k hk
    show ((List.range st1.buffers.length).map _).getD k [] = _
    rw [getD_range_map, if_pos hk]

/-- **C9**: `append []` is a no-op, and an append whose arity differs from the
current channel count never errors: the channel count is reconciled first —
growing adds default-named/colored channels over freshly allocated NaN buffers
while every surviving channel keeps its metadata and its data by index,
shrinking drops trailing channels and their buffers — and then the sample is
written at the current ring slot across all channels. -/
theorem c9_arity_reconciliation (st : RingStore) (now : ℚ) (values : List Val)
    (hsb : st.series.length = st.buffers.length)
    (hbl : ∀ buf ∈ st.buffers, buf.length = st.capacity)
    (hcap : 0 < st.capacity) :
    st.append now [] = st
    ∧ (values ≠ [] →
        (st.append now values).series.length = values.length
        ∧ (st.append now values).buffers.length = values.length
        ∧ (∀ k, k < st.series.length → k < values.length →
            (st.append now values).series.getD k ⟨0, "", ""⟩ = st.series.getD k ⟨0, "", ""⟩)
        ∧ (∀ k, st.series.length ≤ k → k < values.length →
            (st.append now values).series.getD k ⟨0, "", ""⟩
              = ⟨k, "S" ++ toString (k + 1), defaultColor k⟩)
        ∧ (∀ k i, k < st.series.length → k < values.length → i < st.capacity →
            i ≠ st.writeIndex % st.capacity →
            ((st.append now values).buffers.getD k []).getD i none
              = (st.buffers.getD k []).getD i none)
        ∧ (∀ k i, st.series.length ≤ k → k < values.length → i < st.capacity →
            i ≠ st.writeIndex % st.capacity →
            ((st.append now values).buffers.getD k []).getD i none = none)
        ∧ (∀ k, k < values.length →
            ((st.append now values).buffers.getD k []).getD (st.writeIndex % st.capacity) none
              = values.getD k none)) := by
  refine ⟨st.append_nil now, fun hv => ?_⟩
  have hlen : ¬ values.length = 0 := by simpa using hv
  obtain ⟨hs1, hb1, hpres, hnew, hbl1⟩ := st.reconcile_state values.length hsb hbl
  obtain ⟨-, hc1, hw1, -, -, -, -, -, -⟩ := st.reconcileForAppend_eta values.length
  obtain ⟨hws, hwl, hwg⟩ := (st.reconcileForAppend values.length).writeSample_fields now values
  rw [st.append_pos now values hlen]
  have hidx : (st.reconcileForAppend values.length).writeIndex
      % (st.reconcileForAppend values.length).capacity = st.writeIndex % st.capacity := by
    rw [hc1, hw1]
  have hminv : min values.length (st.reconcileForAppend values.length).buffers.length
      = values.length := by rw [hb1, min_self]
  have hbufk : ∀ k, k < values.length →
      ((st.reconcileForAppend values.length).writeSample now values).buffers.getD k []
        = ((st.reconcileForAppend values.length).buffers.getD k []).set
            (st.writeIndex % st.capacity) (values.getD k none) := by
    intro k hk
    rw [hwg k (by rw [hb1]; exact hk), hminv, if_pos hk, hidx]
  refine ⟨?_, ?_, ?_, ?_, ?_, ?_, ?_⟩
  · rw [hws, hs1]
  · rw [hwl, hb1]
  · intro k hk1 hk2
    rw [hws]
    exact (hpres k hk1 hk2).1
  · intro k hk1 hk2
    rw [hws]
    exact (hnew k hk1 hk2).1
  · intro k i hk1 hk2 hi hne
    rw [hbufk k hk2, getD_set_ne _ _ _ _ _ (fun h => hne h.symm), (hpres k hk1 hk2).2]
  · intro k i hk1 hk2 hi hne
    rw [hbufk k hk2, getD_set_ne _ _ _ _ _ (fun h => hne h.symm), (hnew k hk1 hk2).2,
      getD_replicate, if_pos hi]
  · intro k hk
    have hkb : k < (st.reconcileForAppend values.length).buffers.length := by
      rw [hb1]; exact hk
    have hblen : ((st.reconcileForAppend values.length).buffers.getD k []).length
        = st.capacity := by
      apply hbl1
      rw [List.getD_eq_getElem?_getD, List.getElem?_eq_getElem hkb, Option.getD_some]
      exact List.getElem_mem hkb
    rw [hbufk k hk, getD_set_self _ _ _ _ (by rw [hblen]; exact Nat.mod_lt _ hcap)]

/-- Witness for `c9_arity_reconciliation`: appending a 2-channel row to a
1-channel store grows the store, preserves channel 0, and writes both values. -/
theorem c9_arity_reconciliation_witness :
    ((RingStore.reset 4 10 ["S1"]).append 0 [some 1, some 2]).series.length = 2
    ∧ ((RingStore.reset 4 10 ["S1"]).append 0 [some 1, some 2]).series.getD 1 ⟨0, "", ""⟩
        = ⟨1, "S2", defaultColor 1⟩
    ∧ (((RingStore.reset 4 10 ["S1"]).append 0 [some 1, some 2]).buffers.getD 0 []).getD 0 none
        = some 1
    ∧ (((RingStore.reset 4 10 ["S1"]).append 0 [some 1, some 2]).buffers.getD 1 []).getD 0 none
        = some 2 :=
  have h := c9_arity_reconciliation (RingStore.reset 4 10 ["S1"]) 0 [some 1, some 2]
    (by decide) (by decide) (by decide)
  have h2 := h.2 (by decide)
  ⟨h2.1,
    (h2.2.2.2.1 1 (by decide) (by decide)).trans (by decide),
    h2.2.2.2.2.2.2 0 (by decide),
    h2.2.2.2.2.2.2 1 (by decide)⟩

end WSP

namespace WSP

/-! ### C1 — the newest window is chronological across wraparound -/

lemma getD_eq_getElem {α : Type*} (l : List α) (k : ℕ) (d : α) (h : k < l.length) :
    l.getD k d = l[k] := by
  rw [List.getD_eq_getElem?_getD, List.getElem?_eq_getElem h, Option.getD_some]

lemma RingStore.sampleOk_iff (st : RingStore) (si : ℤ) :
    st.sampleOk si = true
      ↔ 0 ≤ si ∧ si < (st.writeIndex : ℤ)
          ∧ ((st.writeIndex : ℤ) ≤ (st.capacity : ℤ)
              ∨ (st.writeIndex : ℤ) - (st.capacity : ℤ) ≤ si) := by
  simp [RingStore.sampleOk, and_assoc]

/-- State of a store built by resetting to `names` and appending `rows`
(constant arity, at least one channel): counters, viewport fields, buffer
shapes, and — the heart of C1 — each retained total index `t` is found at ring
slot `t % capacity` holding row `t`. -/
lemma mkTrace_state (cap : ℕ) (vps : ℤ) (names : List String) (hcap : 0 < cap)
    (hn : 0 < names.length) :
    ∀ rows : List (List Val), (∀ r ∈ rows, r.length = names.length) →
      (mkTrace cap vps names rows).capacity = cap
      ∧ (mkTrace cap vps names rows).writeIndex = rows.length
      ∧ (mkTrace cap vps names rows).viewPortSize = vps
      ∧ (mkTrace cap vps names rows).frozen = false
      ∧ (mkTrace cap vps names rows).series.length = names.length
      ∧ (mkTrace cap vps names rows).buffers.length = names.length
      ∧ (∀ buf ∈ (mkTrace cap vps names rows).buffers, buf.length = cap)
      ∧ (mkTrace cap vps names rows).viewPortCursor = max 0 ((rows.length : ℤ) - 1)
      ∧ (∀ k, k < names.length → ∀ t, t < rows.length → rows.length ≤ t + cap →
          ((mkTrace cap vps names rows).buffers.getD k []).getD (t % cap) none
            = (rows.getD t []).getD k none) := by
  intro rows
  induction rows using List.reverseRecOn with
  | nil =>
    intro _
    refine ⟨rfl, rfl, rfl, rfl, ?_, ?_, ?_, ?_, ?_⟩
    · simp [mkTrace, RingStore.appendAll, RingStore.reset]
    · simp [mkTrace, RingStore.appendAll, RingStore.reset]
    · intro buf hbuf
      rw [List.eq_of_mem_replicate hbuf]
      exact List.length_replicate _ _
    · show (0 : ℤ) = max 0 ((List.length [] : ℤ) - 1)
      simp
    · intro k hk t ht
      simp at ht
  | append_singleton rs r ih =>
    intro hch
    have hch' : ∀ x ∈ rs, x.length = names.length :=
      fun x hx => hch x (List.mem_append_left _ hx)
    have hr : r.length = names.length := hch r (List.mem_append_right _ (List.mem_cons_self r []))
    obtain ⟨hc, hw, hv, hf, hs, hb, hlens, hcur, hdata⟩ := ih hch'
    have hstep : mkTrace cap vps names (rs ++ [r]) = (mkTrace cap vps names rs).append 0 r := by
      unfold mkTrace RingStore.appendAll
      rw [List.foldl_concat]
    set st := mkTrace cap vps names rs with hst
    have hlen0 : ¬ r.length = 0 := by
      rw [hr]
      omega
    have hrec : st.reconcileForAppend r.length = st := by
      unfold RingStore.reconcileForAppend
      rw [if_neg (by rw [hr, hb]; exact fun h => h rfl)]
    have happ : mkTrace cap vps names (rs ++ [r]) = st.writeSample 0 r := by
      rw [hstep, st.append_pos 0 r hlen0, hrec]
    obtain ⟨hws, hwl, hwg⟩ := st.writeSample_fields 0 r
    have hminv : min r.length st.buffers.length = st.buffers.length := by
      rw [hr, hb, min_self]
    refine ⟨?_, ?_, ?_, ?_, ?_, ?_, ?_, ?_, ?_⟩
    · rw [happ]
      show st.capacity = cap
      exact hc
    · rw [happ]
      show st.writeIndex + 1 = (rs ++ [r]).length
      rw [hw, List.length_append, List.length_cons, List.length_nil]
    · rw [happ]
      show st.viewPortSize = vps
      exact hv
    · rw [happ]
      show st.frozen = false
      exact hf
    · rw [happ, hws]
      exact hs
    · rw [happ, hwl]
      exact hb
    · rw [happ]
      intro buf hbuf
      show buf.length = cap
      obtain ⟨i, hi, rfl⟩ := List.mem_map.1 hbuf
      have himem : i < st.buffers.length := List.mem_range.1 hi
      have hblen : (st.buffers.getD i []).length = cap := by
        apply hlens
        rw [getD_eq_getElem _ _ _ himem]
        exact List.getElem_mem himem
      split <;> rw [List.length_set, hblen]
    · rw [happ]
      show (if st.frozen = true then st.viewPortCursor else (st.writeIndex : ℤ))
          = max 0 (((rs ++ [r]).length : ℤ) - 1)
      rw [hf, if_neg (by simp), hw]
      simp only [List.length_append, List.length_cons, List.length_nil]
      push_cast
      omega
    · intro k hk t ht htc
      rw [happ]
      have hkb : k < st.buffers.length := by rw [hb]; exact hk
      have hidx : st.writeIndex % st.capacity = rs.length % cap := by rw [hw, hc]
      have hbufk : (st.writeSample 0 r).buffers.getD k []
          = (st.buffers.getD k []).set (rs.length % cap) (r.getD k none) := by
        rw [hwg k hkb, hminv, if_pos hkb, hidx]
      rw [hbufk]
      have hblen : (st.buffers.getD k []).length = cap := by
        apply hlens
        rw [getD_eq_getElem _ _ _ hkb]
        exact List.getElem_mem hkb
      simp only [List.length_append, List.length_cons, List.length_nil] at ht htc
      rcases Nat.lt_succ_iff_lt_or_eq.1 (by omega : t < rs.length + 1) with htl | rfl
      · have hne : rs.length % cap ≠ t % cap :=
          mod_ne_of_between htl (by omega)
        rw [getD_set_ne _ _ _ _ _ hne, hdata k hk t htl (by omega),
          getD_append_lt _ _ _ _ htl]
      · rw [getD_set_self _ _ _ _ (by rw [hblen]; exact Nat.mod_lt _ hcap),
          getD_append_ge _ _ _ _ (le_refl _)]
        simp

/-- **C1**: when at least `L ≥ 1` samples are retained (`L ≤ min(total,
capacity)`) and the viewport sits at the newest sample with size `L`, the
snapshot returns, for every channel, exactly the last `L` appended values in
chronological order — across ring wraparound. -/
theorem c1_newest_window_chronological (cap L : ℕ) (names : List String)
    (rows : List (List Val))
    (hn : 0 < names.length)
    (hch : ∀ r ∈ rows, r.length = names.length)
    (hL : 0 < L) (hLR : L ≤ min rows.length cap) :
    (mkTrace cap (L : ℤ) names rows).writeIndex = rows.length
    ∧ (mkTrace cap (L : ℤ) names rows).retainedLength = min rows.length cap
    ∧ ∀ k, k < names.length →
        ((mkTrace cap (L : ℤ) names rows).getViewPortData).seriesData.getD k []
          = (rows.drop (rows.length - L)).map fun r => r.getD k none := by
  have hLn : L ≤ rows.length := le_trans hLR (min_le_left _ _)
  have hLc : L ≤ cap := le_trans hLR (min_le_right _ _)
  have hcap : 0 < cap := lt_of_lt_of_le hL hLc
  obtain ⟨hc, hw, hv, hf, hs, hb, hlens, hcur, hdata⟩ :=
    mkTrace_state cap (L : ℤ) names hcap hn rows hch
  set st := mkTrace cap (L : ℤ) names rows with hst
  set n := rows.length with hnr
  have heff : st.vpEffSize = (L : ℤ) := by
    rw [RingStore.vpEffSize, hv, hc]
    omega
  have hcur' : st.viewPortCursor = (n : ℤ) - 1 := by
    rw [hcur]
    omega
  have hstart : st.vpStart = (n : ℤ) - (L : ℤ) := by
    rw [RingStore.vpStart, heff, hcur']
    ring
  have hzl : ¬ st.viewPortCursor < st.vpStart := by
    rw [hcur', hstart]
    omega
  have hvl : st.vpLen = L := by
    rw [st.vpLen_eq, heff]
    exact Int.toNat_natCast L
  refine ⟨hw, by rw [RingStore.retainedLength, hw, hc], ?_⟩
  intro k hk
  have hload : (st.getViewPortData).seriesData = st.vpSeriesViews := rfl
  rw [hload]
  unfold RingStore.vpSeriesViews
  rw [if_neg hzl, getD_range_map, if_pos (by rw [hs]; exact hk)]
  apply List.ext_getElem
  · rw [List.length_map, List.length_range, List.length_map, List.length_drop, hvl]
    omega
  · intro i h1 h2
    rw [List.length_map, List.length_range, hvl] at h1
    rw [List.getElem_map, List.getElem_range, List.getElem_map, List.getElem_drop]
    have hsi : st.vpStart + (i : ℤ) = ((n - L + i : ℕ) : ℤ) := by
      rw [hstart]
      omega
    have hok : st.sampleOk (st.vpStart + (i : ℤ)) = true := by
      rw [st.sampleOk_iff, hsi, hw]
      refine ⟨by positivity, by push_cast; omega, Or.inr (by push_cast; omega)⟩
    rw [RingStore.sampleVal, if_pos hok, hsi]
    have htn : ((n - L + i : ℕ) : ℤ).toNat = n - L + i := by omega
    rw [htn, hc, hdata k hk (n - L + i) (by omega) (by omega)]
    congr 1
    exact getD_eq_getElem _ _ _ (by omega)

/-- The C1 concrete scenario rows: capacity 4, 2 channels, 5 samples. -/
def c1Rows : List (List Val) :=
  [[some 1, some 10], [some 2, some 20], [some 3, some 30], [some 4, some 40],
    [some 5, some 50]]

/-- Witness for `c1_newest_window_chronological`: the concrete scenario —
`total = 5`, retained length 4, newest window of length 4 returns
channel 0 = `[2,3,4,5]` and channel 1 = `[20,30,40,50]`. -/
theorem c1_newest_window_chronological_witness :
    (mkTrace 4 (4 : ℤ) ["S1", "S2"] c1Rows).writeIndex = 5
    ∧ (mkTrace 4 (4 : ℤ) ["S1", "S2"] c1Rows).retainedLength = 4
    ∧ ((mkTrace 4 (4 : ℤ) ["S1", "S2"] c1Rows).getViewPortData).seriesData.getD 0 []
        = [some 2, some 3, some 4, some 5]
    ∧ ((mkTrace 4 (4 : ℤ) ["S1", "S2"] c1Rows).getViewPortData).seriesData.getD 1 []
        = [some 20, some 30, some 40, some 50] :=
  have h := c1_newest_window_chronological 4 4 ["S1", "S2"] c1Rows (by decide) (by decide)
    (by decide) (by decide)
  ⟨h.1.trans (by decide), h.2.1.trans (by decide),
    (h.2.2 0 (by decide)).trans (by decide), (h.2.2 1 (by decide)).trans (by decide)⟩

end WSP

namespace WSP

/-! ### C7 — range-tracker invariant and snapshot y-range -/

/-- Structural well-formedness: one buffer per series, every buffer sized to
the capacity. -/
def RingStore.StructOk (st : RingStore) : Prop :=
  st.series.length = st.buffers.length
  ∧ ∀ buf ∈ st.buffers, buf.length = st.capacity

/-- The range-tracker invariant: every finite buffered value lies between the
running minimum and maximum. -/
def RingStore.RangeOk (st : RingStore) : Prop :=
  ∀ buf ∈ st.buffers, ∀ q : ℚ, some q ∈ buf →
    ∃ mn mx, st.globalMin = some mn ∧ st.globalMax = some mx ∧ mn ≤ q ∧ q ≤ mx

lemma getD_of_length_le {α : Type*} (l : List α) (k : ℕ) (d : α) (h : l.length ≤ k) :
    l.getD k d = d := by
  rw [List.getD_eq_getElem?_getD, List.getElem?_eq_none h, Option.getD_none]

lemma RingStore.reset_inv (cap : ℕ) (vps : ℤ) (names : List String) :
    (RingStore.reset cap vps names).StructOk ∧ (RingStore.reset cap vps names).RangeOk := by
  constructor
  · constructor
    · show ((List.range names.length).map _).length = (List.replicate names.length _).length
      rw [List.length_map, List.length_range, List.length_replicate]
    · intro buf hbuf
      rw [List.eq_of_mem_replicate hbuf]
      exact List.length_replicate _ _
  · intro buf hbuf q hq
    rw [List.eq_of_mem_replicate hbuf] at hq
    exact absurd (List.eq_of_mem_replicate hq) (by simp)

lemma RingStore.reconcile_buffers_mem (st : RingStore) (m : ℕ) :
    ∀ buf ∈ (st.reconcileForAppend m).buffers,
      buf ∈ st.buffers ∨ buf = List.replicate st.capacity none := by
  intro buf hbuf
  unfold RingStore.reconcileForAppend RingStore.adjustSeriesCount at hbuf
  split at hbuf
  · split at hbuf
    · exact Or.inl hbuf
    · split at hbuf
      · rcases List.mem_append.1 hbuf with h | h
        · exact Or.inl h
        · exact Or.inr (List.eq_of_mem_replicate h)
      · exact Or.inl (List.mem_of_mem_take hbuf)
  · exact Or.inl hbuf

lemma RingStore.reconcile_inv (st : RingStore) (m : ℕ)
    (hstruct : st.StructOk) (hrange : st.RangeOk) :
    (st.reconcileForAppend m).StructOk ∧ (st.reconcileForAppend m).RangeOk := by
  obtain ⟨hsb, hbl⟩ := hstruct
  obtain ⟨hs1, hb1, -, -, hbl1⟩ := st.reconcile_state m hsb hbl
  obtain ⟨-, hc1, -, -, -, -, hgmin, hgmax, -⟩ := st.reconcileForAppend_eta m
  refine ⟨⟨by rw [hs1, hb1], by rw [hc1]; exact hbl1⟩, ?_⟩
  intro buf hbuf q hq
  rcases st.reconcile_buffers_mem m buf hbuf with hmem | hrep
  · obtain ⟨mn, mx, h1, h2, h3, h4⟩ := hrange buf hmem q hq
    exact ⟨mn, mx, by rw [hgmin]; exact h1, by rw [hgmax]; exact h2, h3, h4⟩
  · rw [hrep] at hq
    exact absurd (List.eq_of_mem_replicate hq) (by simp)

lemma RingStore.writeSample_inv (st1 : RingStore) (now : ℚ) (values : List Val)
    (hstruct : st1.StructOk) (hrange : st1.RangeOk) :
    (st1.writeSample now values).StructOk ∧ (st1.writeSample now values).RangeOk := by
  obtain ⟨hsb, hbl⟩ := hstruct
  obtain ⟨hws, hwl, hwg⟩ := st1.writeSample_fields now values
  have hbufmem : ∀ buf ∈ (st1.writeSample now values).buffers,
      ∃ k, k < st1.buffers.length ∧
        buf = (if k < min values.length st1.buffers.length then
            (st1.buffers.getD k []).set (st1.writeIndex % st1.capacity) (values.getD k none)
          else (st1.buffers.getD k []).set (st1.writeIndex % st1.capacity) none) := by
    intro buf hbuf
    obtain ⟨k, hk, rfl⟩ := List.mem_map.1 hbuf
    exact ⟨k, List.mem_range.1 hk, rfl⟩
  constructor
  · constructor
    · rw [hws, hwl]
      exact hsb
    · intro buf hbuf
      obtain ⟨k, hk, rfl⟩ := hbufmem _ hbuf
      have hkm : (st1.buffers.getD k []).length = st1.capacity := by
        apply hbl
        rw [getD_eq_getElem _ _ _ hk]
        exact List.getElem_mem hk
      show _ = (st1.writeSample now values).capacity
      have hcap : (st1.writeSample now values).capacity = st1.capacity := rfl
      rw [hcap]
      split <;> rw [List.length_set, hkm]
  · intro buf hbuf q hq
    have hgmin : (st1.writeSample now values).globalMin
        = (values.take (min values.length st1.buffers.length)).foldl updMin st1.globalMin := rfl
    have hgmax : (st1.writeSample now values).globalMax
        = (values.take (min values.length st1.buffers.length)).foldl updMax st1.globalMax := rfl
    obtain ⟨k, hk, rfl⟩ := hbufmem _ hbuf
    have hold : ∀ v ∈ st1.buffers.getD k [], ∀ p : ℚ, v = some p →
        ∃ mn mx, st1.globalMin = some mn ∧ st1.globalMax = some mx ∧ mn ≤ p ∧ p ≤ mx := by
      intro v hv p hp
      apply hrange (st1.buffers.getD k [])
      · rw [getD_eq_getElem _ _ _ hk]
        exact List.getElem_mem hk
      · rw [← hp]
        exact hv
    have hfromOld : ∀ p : ℚ,
        (∃ mn mx, st1.globalMin = some mn ∧ st1.globalMax = some mx ∧ mn ≤ p ∧ p ≤ mx) →
        ∃ mn mx, (st1.writeSample now values).globalMin = some mn
          ∧ (st1.writeSample now values).globalMax = some mx ∧ mn ≤ p ∧ p ≤ mx := by
      rintro p ⟨mn, mx, h1, h2, h3, h4⟩
      obtain ⟨mn', hm1, hm2⟩ :=
        foldl_updMin_some (values.take (min values.length st1.buffers.length)) mn
      obtain ⟨mx', hx1, hx2⟩ :=
        foldl_updMax_some (values.take (min values.length st1.buffers.length)) mx
      exact ⟨mn', mx', by rw [hgmin, h1]; exact hm1, by rw [hgmax, h2]; exact hx1,
        le_trans hm2 h3, le_trans h4 hx2⟩
    split at hq
    · rcases List.mem_or_eq_of_mem_set hq with hmem | heq
      · exact hfromOld q (hold _ hmem q rfl)
      · -- the freshly written value: it occurs in the folded prefix
        rename_i hkn
        have hkv : k < values.length := lt_of_lt_of_le hkn (min_le_left _ _)
        have hqv : (values.take (min values.length st1.buffers.length)).getD k none
            = some q := by
          rw [getD_take_lt _ _ _ _ hkn, ← heq]
        have hqmem : some q ∈ values.take (min values.length st1.buffers.length) := by
          rw [← hqv]
          have hkt : k < (values.take (min values.length st1.buffers.length)).length := by
            rw [List.length_take]
            omega
          rw [getD_eq_getElem _ _ _ hkt]
          exact List.getElem_mem hkt
        obtain ⟨mn', hm1, hm2⟩ :=
          foldl_updMin_mem (values.take (min values.length st1.buffers.length))
            st1.globalMin q hqmem
        obtain ⟨mx', hx1, hx2⟩ :=
          foldl_updMax_mem (values.take (min values.length st1.buffers.length))
            st1.globalMax q hqmem
        exact ⟨mn', mx', by rw [hgmin]; exact hm1, by rw [hgmax]; exact hx1, hm2, hx2⟩
    · rcases List.mem_or_eq_of_mem_set hq with hmem | heq
      · exact hfromOld q (hold _ hmem q rfl)
      · exact absurd heq (by simp)

lemma RingStore.append_inv (st : RingStore) (now : ℚ) (values : List Val)
    (hstruct : st.StructOk) (hrange : st.RangeOk) :
    (st.append now values).StructOk ∧ (st.append now values).RangeOk := by
  rcases eq_or_ne values [] with rfl | hv
  · rw [st.append_nil now]
    exact ⟨hstruct, hrange⟩
  · rw [st.append_pos now values (by simpa using hv)]
    obtain ⟨h1, h2⟩ := st.reconcile_inv values.length hstruct hrange
    exact (st.reconcileForAppend values.length).writeSample_inv now values h1 h2

end WSP

namespace WSP

lemma RingStore.scanCells_mem (st : RingStore)
    (hsb : st.series.length = st.buffers.length)
    (hbl : ∀ buf ∈ st.buffers, buf.length = st.capacity) :
    ∀ buf ∈ st.buffers, ∀ v ∈ buf, v ∈ st.scanCells := by
  intro buf hbuf v hv
  obtain ⟨s, hs, rfl⟩ := List.mem_iff_getElem.1 hbuf
  obtain ⟨i, hi, rfl⟩ := List.mem_iff_getElem.1 hv
  unfold RingStore.scanCells
  rw [List.mem_flatMap]
  refine ⟨s, List.mem_range.2 (by omega), ?_⟩
  rw [List.mem_map]
  have hlen : st.buffers[s].length = st.capacity := hbl _ (List.getElem_mem hs)
  refine ⟨i, List.mem_range.2 (by omega), ?_⟩
  rw [getD_eq_getElem _ _ _ hs, getD_eq_getElem _ _ _ (by omega)]

lemma RingStore.recompute_RangeOk (st : RingStore)
    (hsb : st.series.length = st.buffers.length)
    (hbl : ∀ buf ∈ st.buffers, buf.length = st.capacity) :
    (st.recomputeGlobalMinMax).RangeOk := by
  intro buf hbuf q hq
  have hbuf' : buf ∈ st.buffers := hbuf
  have hmem : (some q : Val) ∈ st.scanCells := st.scanCells_mem hsb hbl buf hbuf' q hq
  obtain ⟨mn, hm1, hm2⟩ := foldl_updMin_mem st.scanCells none q hmem
  obtain ⟨mx, hx1, hx2⟩ := foldl_updMax_mem st.scanCells none q hmem
  exact ⟨mn, mx, hm1, hx1, hm2, hx2⟩

lemma RingStore.inv_congr {st st' : RingStore}
    (hser : st'.series = st.series) (hbuf : st'.buffers = st.buffers)
    (hcap : st'.capacity = st.capacity) (hgm : st'.globalMin = st.globalMin)
    (hgx : st'.globalMax = st.globalMax)
    (h : st.StructOk ∧ st.RangeOk) : st'.StructOk ∧ st'.RangeOk := by
  obtain ⟨⟨h1, h2⟩, h3⟩ := h
  refine ⟨⟨by rw [hser, hbuf]; exact h1, by rw [hbuf, hcap]; exact h2⟩, ?_⟩
  intro buf hb q hq
  rw [hbuf] at hb
  obtain ⟨mn, mx, a1, a2, a3, a4⟩ := h3 buf hb q hq
  exact ⟨mn, mx, by rw [hgm]; exact a1, by rw [hgx]; exact a2, a3, a4⟩

lemma RingStore.resizeCore_inv (st : RingStore) (n : ℕ) (hsb : st.series.length = st.buffers.length) :
    (st.resizeCore n).StructOk ∧ (st.resizeCore n).RangeOk := by
  have hstructPre :
      ({ st with
        buffers := (List.range st.buffers.length).map fun s =>
          (List.range n).map fun j =>
            if j < min st.retainedLength n ∧ s < st.series.length then
              (st.buffers.getD s []).getD
                ((st.writeIndex - min st.retainedLength n + j) % st.capacity) none
            else none
        times := (List.range n).map fun j =>
          if j < min st.retainedLength n then
            st.times.getD ((st.writeIndex - min st.retainedLength n + j) % st.capacity) none
          else none
        capacity := n
        writeIndex := min st.retainedLength n } : RingStore).StructOk := by
    constructor
    · show st.series.length = ((List.range st.buffers.length).map _).length
      rw [List.length_map, List.length_range]
      exact hsb
    · intro buf hbuf
      obtain ⟨s, -, rfl⟩ := List.mem_map.1 hbuf
      show ((List.range n).map _).length = n
      rw [List.length_map, List.length_range]
  exact ⟨hstructPre, RingStore.recompute_RangeOk _ hstructPre.1 hstructPre.2⟩

end WSP

namespace WSP

lemma RingStore.setCapacity_core_fields (st : RingStore) (n : ℕ) (h : ¬ n = st.capacity) :
    (st.setCapacity n).series = (st.resizeCore n).series
    ∧ (st.setCapacity n).buffers = (st.resizeCore n).buffers
    ∧ (st.setCapacity n).capacity = (st.resizeCore n).capacity
    ∧ (st.setCapacity n).globalMin = (st.resizeCore n).globalMin
    ∧ (st.setCapacity n).globalMax = (st.resizeCore n).globalMax := by
  unfold RingStore.setCapacity
  rw [if_neg h]
  simp only [RingStore.setViewPortCursor]
  refine ⟨?_, ?_, ?_, ?_, ?_⟩ <;> (split <;> rfl)

lemma RingStore.setCapacity_inv (st : RingStore) (n : ℕ)
    (h : st.StructOk ∧ st.RangeOk) :
    (st.setCapacity n).StructOk ∧ (st.setCapacity n).RangeOk := by
  by_cases hn : n = st.capacity
  · unfold RingStore.setCapacity
    rw [if_pos hn]
    exact h
  · obtain ⟨f1, f2, f3, f4, f5⟩ := st.setCapacity_core_fields n hn
    exact RingStore.inv_congr f1 f2 f3 f4 f5 (st.resizeCore_inv n h.1.1)

lemma RingStore.applyOp_inv (st : RingStore) (op : Op)
    (h : st.StructOk ∧ st.RangeOk) :
    (applyOp st op).StructOk ∧ (applyOp st op).RangeOk := by
  cases op with
  | append now values => exact st.append_inv now values h.1 h.2
  | setSeries names => exact RingStore.reset_inv _ _ _
  | setCapacity n => exact st.setCapacity_inv n h
  | setViewPortCursor p => exact RingStore.inv_congr rfl rfl rfl rfl rfl h
  | adjustViewPortCursor d => exact RingStore.inv_congr rfl rfl rfl rfl rfl h
  | setViewPortSize n => exact RingStore.inv_congr rfl rfl rfl rfl rfl h
  | setFrozen b => cases b <;> exact RingStore.inv_congr rfl rfl rfl rfl rfl h
  | zoomByFactor f => exact RingStore.inv_congr rfl rfl rfl rfl rfl h

lemma RingStore.reachable_inv (st : RingStore) (h : Reachable st) :
    st.StructOk ∧ st.RangeOk := by
  induction h with
  | init cap vps => exact RingStore.reset_inv cap vps []
  | step st' op hr ih => exact RingStore.applyOp_inv st' op ih

/-- **C7**: in every reachable state every finite buffered value `v` satisfies
`globalMin ≤ v ≤ globalMax`; every snapshot's y-range is a nonempty open
interval — `[-1, 1]` when the window holds no finite value, and symmetric
`max(1, |m|/10)` padding around `m` when the window minimum and maximum
coincide at `m`. -/
theorem c7_range_invariants (st : RingStore) (h : Reachable st) :
    (∀ buf ∈ st.buffers, ∀ q : ℚ, some q ∈ buf →
      ∃ mn mx, st.globalMin = some mn ∧ st.globalMax = some mx ∧ mn ≤ q ∧ q ≤ mx)
    ∧ (st.getViewPortData).yMin < (st.getViewPortData).yMax
    ∧ (st.vpRawMin = none ∨ st.vpRawMax = none →
        (st.getViewPortData).yMin = -1 ∧ (st.getViewPortData).yMax = 1)
    ∧ (∀ m : ℚ, st.vpRawMin = some m → st.vpRawMax = some m →
        (st.getViewPortData).yMin = m - max 1 (|m| * (1/10))
        ∧ (st.getViewPortData).yMax = m + max 1 (|m| * (1/10))) := by
  refine ⟨fun buf hb q hq => (st.reachable_inv h).2 buf hb q hq, vpYRange_lt st, ?_, ?_⟩
  · intro hcase
    have hnone : st.vpRawMin = none ∧ st.vpRawMax = none := by
      rcases vpRaw_rel st with ⟨a, b⟩ | ⟨mn, mx, a, b, -⟩
      · exact ⟨a, b⟩
      · rcases hcase with hc | hc
        · rw [a] at hc
          exact absurd hc (by simp)
        · rw [b] at hc
          exact absurd hc (by simp)
    constructor
    · show st.vpYRange.1 = -1
      unfold RingStore.vpYRange
      rw [hnone.1, hnone.2]
    · show st.vpYRange.2 = 1
      unfold RingStore.vpYRange
      rw [hnone.1, hnone.2]
  · intro m hm hx
    constructor
    · show st.vpYRange.1 = m - max 1 (|m| * (1/10))
      unfold RingStore.vpYRange
      rw [hm, hx]
      simp
    · show st.vpYRange.2 = m + max 1 (|m| * (1/10))
      unfold RingStore.vpYRange
      rw [hm, hx]
      simp

/-- A concrete reachable store: construct, set one channel, append `5`. -/
def c7WitStore : RingStore :=
  applyOp (applyOp (RingStore.init 4 10) (Op.setSeries ["S1"])) (Op.append 3 [some 5])

/-- Witness for `c7_range_invariants` at a concrete reachable store. -/
theorem c7_range_invariants_witness :
    (∀ buf ∈ c7WitStore.buffers, ∀ q : ℚ, some q ∈ buf →
      ∃ mn mx, c7WitStore.globalMin = some mn ∧ c7WitStore.globalMax = some mx
        ∧ mn ≤ q ∧ q ≤ mx)
    ∧ (c7WitStore.getViewPortData).yMin < (c7WitStore.getViewPortData).yMax :=
  have hr : Reachable c7WitStore :=
    Reachable.step _ _ (Reachable.step _ _ (Reachable.init 4 10))
  ⟨(c7_range_invariants c7WitStore hr).1, (c7_range_invariants c7WitStore hr).2.1⟩

end WSP

namespace WSP

/-! ### C5 — zoom round-trip and the (absent) center preservation -/

lemma RingStore.setViewPortCursor_cursor (st : RingStore) (p : ℚ) :
    (st.setViewPortCursor p).viewPortCursor
      = min (max 0 (jsRound p))
          (max 0 (min ((st.writeIndex : ℤ) - 1) ((st.capacity : ℤ) - 1))) := rfl

lemma RingStore.zoomByFactor_cursor (st : RingStore) (f : ℚ) :
    (st.zoomByFactor f).viewPortCursor = st.viewPortCursor := rfl

lemma RingStore.zoomByFactor_capacity (st : RingStore) (f : ℚ) :
    (st.zoomByFactor f).capacity = st.capacity := rfl

lemma RingStore.zoomByFactor_vps (st : RingStore) (f : ℚ) :
    (st.zoomByFactor f).viewPortSize
      = max 10 (min (max 10 (min (st.capacity : ℤ)
            (jsRound ((st.viewPortSize : ℚ) / max (1/2) (min 2 f)))))
          (st.capacity : ℤ)) := rfl

lemma jsRound_bounds (x : ℚ) :
    (jsRound x : ℚ) ≤ x + 1/2 ∧ x - 1/2 < (jsRound x : ℚ) := by
  unfold jsRound
  constructor
  · exact_mod_cast Int.floor_le (x + 1/2)
  · have h := Int.lt_floor_add_one (x + 1/2)
    linarith

/-- **C5** (amended): when the zoom factor stays inside the per-call clamp
`[0.5, 2]` and neither rounded size hits the `[10, capacity]` bounds,
`zoomByFactor f` followed by `zoomByFactor (1/f)` restores the viewport size
to within `±1`; the cursor is never recomputed by zooming, so the previous
center total-index is generally not re-centered. -/
theorem c5_zoom_roundtrip (st : RingStore) (f : ℚ)
    (hf1 : 1/2 ≤ f) (hf2 : f ≤ 2)
    (h1a : 10 ≤ jsRound ((st.viewPortSize : ℚ) / f))
    (h1b : jsRound ((st.viewPortSize : ℚ) / f) ≤ (st.capacity : ℤ))
    (h2a : 10 ≤ jsRound ((jsRound ((st.viewPortSize : ℚ) / f) : ℚ) * f))
    (h2b : jsRound ((jsRound ((st.viewPortSize : ℚ) / f) : ℚ) * f) ≤ (st.capacity : ℤ)) :
    (st.zoomByFactor f).viewPortCursor = st.viewPortCursor
    ∧ ((st.zoomByFactor f).zoomByFactor (1/f)).viewPortCursor = st.viewPortCursor
    ∧ |((st.zoomByFactor f).zoomByFactor (1/f)).viewPortSize - st.viewPortSize| ≤ 1 := by
  have hfpos : (0 : ℚ) < f := lt_of_lt_of_le (by norm_num) hf1
  have hclamp1 : max (1/2 : ℚ) (min 2 f) = f := by
    rw [min_eq_right hf2, max_eq_right hf1]
  have hinv1 : (1/2 : ℚ) ≤ 1/f := by
    rw [div_le_div_iff (by norm_num) hfpos]
    linarith
  have hinv2 : (1/f : ℚ) ≤ 2 := by
    rw [div_le_iff hfpos]
    linarith
  have hclamp2 : max (1/2 : ℚ) (min 2 (1/f)) = 1/f := by
    rw [min_eq_right hinv2, max_eq_right hinv1]
  have hstep1 : (st.zoomByFactor f).viewPortSize = jsRound ((st.viewPortSize : ℚ) / f) := by
    rw [RingStore.zoomByFactor_vps, hclamp1]
    omega
  have hdivinv : ((jsRound ((st.viewPortSize : ℚ) / f) : ℤ) : ℚ) / (1/f)
      = (jsRound ((st.viewPortSize : ℚ) / f) : ℚ) * f := by
    rw [one_div, div_eq_mul_inv, inv_inv]
  have hstep2 : ((st.zoomByFactor f).zoomByFactor (1/f)).viewPortSize
      = jsRound ((jsRound ((st.viewPortSize : ℚ) / f) : ℚ) * f) := by
    rw [RingStore.zoomByFactor_vps, hclamp2, RingStore.zoomByFactor_capacity, hstep1,
      hdivinv]
    omega
  refine ⟨RingStore.zoomByFactor_cursor st f, ?_, ?_⟩
  · rw [RingStore.zoomByFactor_cursor, RingStore.zoomByFactor_cursor]
  · rw [hstep2]
    obtain ⟨hb1, hb2⟩ := jsRound_bounds ((st.viewPortSize : ℚ) / f)
    obtain ⟨hb3, hb4⟩ := jsRound_bounds ((jsRound ((st.viewPortSize : ℚ) / f) : ℚ) * f)
    set S : ℤ := st.viewPortSize with hS
    set d1 : ℤ := jsRound ((S : ℚ) / f) with hd1
    set d2 : ℤ := jsRound ((d1 : ℚ) * f) with hd2
    have hup : (d1 : ℚ) * f ≤ (S : ℚ) + 1 := by
      have : (d1 : ℚ) * f ≤ ((S : ℚ) / f + 1/2) * f := by
        apply mul_le_mul_of_nonneg_right hb1 (le_of_lt hfpos)
      rw [add_mul, div_mul_cancel₀ _ (ne_of_gt hfpos)] at this
      nlinarith
    have hlo : (S : ℚ) - 1 ≤ (d1 : ℚ) * f := by
      have : ((S : ℚ) / f - 1/2) * f ≤ (d1 : ℚ) * f := by
        apply mul_le_mul_of_nonneg_right (le_of_lt hb2) (le_of_lt hfpos)
      rw [sub_mul, div_mul_cancel₀ _ (ne_of_gt hfpos)] at this
      nlinarith
    have h2le : d2 ≤ S + 1 := by
      by_contra hlt
      push_neg at hlt
      have hq : ((S : ℚ) + 2) ≤ (d2 : ℚ) := by
        have : (S + 2 : ℤ) ≤ d2 := by omega
        exact_mod_cast this
      linarith
    have h2ge : S - 1 ≤ d2 := by
      by_contra hlt
      push_neg at hlt
      have hq : (d2 : ℚ) ≤ ((S : ℚ) - 2) := by
        have : (d2 : ℤ) ≤ S - 2 := by omega
        exact_mod_cast this
      linarith
    rw [abs_le]
    omega

/-- Witness for `c5_zoom_roundtrip`: size 20, capacity 100, factor 2. -/
theorem c5_zoom_roundtrip_witness :
    ((RingStore.reset 100 20 ["S1"]).zoomByFactor 2).viewPortCursor
        = (RingStore.reset 100 20 ["S1"]).viewPortCursor
    ∧ (((RingStore.reset 100 20 ["S1"]).zoomByFactor 2).zoomByFactor (1/2)).viewPortCursor
        = (RingStore.reset 100 20 ["S1"]).viewPortCursor
    ∧ |(((RingStore.reset 100 20 ["S1"]).zoomByFactor 2).zoomByFactor (1/2)).viewPortSize
        - (RingStore.reset 100 20 ["S1"]).viewPortSize| ≤ 1 :=
  have e1 : ((RingStore.reset 100 20 ["S1"]).viewPortSize : ℚ) / 2 = ((10 : ℤ) : ℚ) := by
    norm_num [RingStore.reset]
  have er1 : jsRound (((RingStore.reset 100 20 ["S1"]).viewPortSize : ℚ) / 2) = 10 := by
    rw [e1, jsRound_intCast]
  have e2 : ((jsRound (((RingStore.reset 100 20 ["S1"]).viewPortSize : ℚ) / 2) : ℤ) : ℚ) * 2
      = ((20 : ℤ) : ℚ) := by
    rw [er1]
    norm_num
  c5_zoom_roundtrip (RingStore.reset 100 20 ["S1"]) 2 (by norm_num) (by norm_num)
    (by rw [er1]) (by rw [er1]; decide)
    (by rw [e2, jsRound_intCast]; norm_num) (by rw [e2, jsRound_intCast]; decide)

/-- Twice the center total-index of the viewport window
`[cursor - effSize + 1, cursor]` (doubled to stay an integer). -/
def center2 (st : RingStore) : ℤ := 2 * st.viewPortCursor - (st.vpEffSize - 1)

/-- Capacity-20 store with 25 appended samples, cursor parked at 15. -/
def c5Store : RingStore :=
  ((RingStore.reset 20 20 ["S1"]).appendAll
    (List.replicate 25 [some 1])).setViewPortCursor ((15 : ℤ) : ℚ)

set_option maxRecDepth 80000 in
/-- **C5** (counterexample to the claim as stated): `zoomByFactor 2` leaves
the cursor untouched, so the total-index previously at the window center
(`center2 = 11`, i.e. 5.5) is not re-centered (`center2` becomes 21, i.e.
10.5) even though no scroll-bound clamping is involved. -/
theorem c5_counterexample :
    (c5Store.zoomByFactor 2).viewPortCursor = c5Store.viewPortCursor
    ∧ center2 c5Store = 11
    ∧ center2 (c5Store.zoomByFactor 2) = 21
    ∧ center2 (c5Store.zoomByFactor 2) ≠ center2 c5Store := by
  have hwbase : ((RingStore.reset 20 20 ["S1"]).appendAll
      (List.replicate 25 [some 1])).writeIndex = 25 := by decide
  have hcbase : ((RingStore.reset 20 20 ["S1"]).appendAll
      (List.replicate 25 [some 1])).capacity = 20 := by decide
  have hcur : c5Store.viewPortCursor = 15 := by
    rw [c5Store, RingStore.setViewPortCursor_cursor, jsRound_intCast, hwbase, hcbase]
    decide
  have hvps : c5Store.viewPortSize = 20 := by decide
  have hcap : c5Store.capacity = 20 := by decide
  have hcl : max (1/2 : ℚ) (min 2 2) = 2 := by norm_num
  have hdiv : ((c5Store.viewPortSize : ℚ)) / 2 = ((10 : ℤ) : ℚ) := by
    rw [hvps]
    norm_num
  have hz : (c5Store.zoomByFactor 2).viewPortSize = 10 := by
    rw [RingStore.zoomByFactor_vps, hcl, hdiv, jsRound_intCast, hcap]
    decide
  refine ⟨RingStore.zoomByFactor_cursor c5Store 2, ?_, ?_, ?_⟩
  · rw [center2, RingStore.vpEffSize, hcur, hvps, hcap]
    decide
  · rw [center2, RingStore.vpEffSize, RingStore.zoomByFactor_cursor,
      RingStore.zoomByFactor_capacity, hcur, hz, hcap]
    decide
  · rw [center2, center2, RingStore.vpEffSize, RingStore.vpEffSize,
      RingStore.zoomByFactor_cursor, RingStore.zoomByFactor_capacity, hcur, hz, hvps, hcap]
    decide

end WSP

namespace WSP

/-! ### C6 — momentum engine termination -/

/-- The per-frame friction factor `Math.pow(0.95, dt / 16.7)`. -/
noncomputable def momentumDecay (dt : ℝ) : ℝ := (0.95 : ℝ) ^ (dt / 16.7)

/-- `startMomentum(v)`: below the `0.005` threshold no frame step is ever
scheduled (`none` = Idle); otherwise Running with velocity `v`. -/
noncomputable def momentumStart (v : ℝ) : Option ℝ :=
  if |v| < 0.005 then none else some v

/-- One scheduled frame step: `dt = max(1, ts - lastTimestamp)`, exponential
friction, stop (cancel the next frame) when the speed drops below `0.005`. -/
noncomputable def momentumStep (st : Option ℝ) (dtRaw : ℝ) : Option ℝ :=
  match st with
  | none => none
  | some v =>
    let dt := max 1 dtRaw
    let v2 := v * momentumDecay dt
    if |v2| < 0.005 then none else some v2

/-- The engine state after `n` scheduled frame steps with raw frame-time
deltas `dts`. -/
noncomputable def momentumRun (v : ℝ) (dts : ℕ → ℝ) : ℕ → Option ℝ
  | 0 => momentumStart v
  | n + 1 => momentumStep (momentumRun v dts n) (dts n)

lemma momentumDecay_nonneg (dt : ℝ) : 0 ≤ momentumDecay dt :=
  Real.rpow_nonneg (by norm_num) _

lemma momentumDecay_le (dtRaw : ℝ) :
    momentumDecay (max 1 dtRaw) ≤ momentumDecay 1 := by
  unfold momentumDecay
  apply Real.rpow_le_rpow_of_exponent_ge (by norm_num) (by norm_num)
  have h1 : (1 : ℝ) ≤ max 1 dtRaw := le_max_left _ _
  rw [div_le_div_iff_of_pos_right (by norm_num)]
  exact h1

lemma momentumDecay_lt_one (dt : ℝ) (h : 1 ≤ dt) : momentumDecay dt < 1 := by
  unfold momentumDecay
  exact Real.rpow_lt_one (by norm_num) (by norm_num) (by positivity)

/-- After `n` steps the engine is either Idle or Running at a speed that has
decayed at least geometrically and is still above the stop threshold. -/
lemma momentumRun_cases (v : ℝ) (dts : ℕ → ℝ) :
    ∀ n, momentumRun v dts n = none
      ∨ ∃ w, momentumRun v dts n = some w
          ∧ |w| ≤ |v| * (momentumDecay 1) ^ n ∧ 0.005 ≤ |w| := by
  intro n
  induction n with
  | zero =>
    unfold momentumRun momentumStart
    by_cases h : |v| < 0.005
    · exact Or.inl (if_pos h)
    · exact Or.inr ⟨v, if_neg h, by simp, le_of_not_lt h⟩
  | succ n ih =>
    rcases ih with hnone | ⟨w, hw, hbound, hmin⟩
    · left
      show momentumStep (momentumRun v dts n) (dts n) = none
      rw [hnone]
      rfl
    · have hstep : momentumRun v dts (n + 1)
          = (if |w * momentumDecay (max 1 (dts n))| < 0.005 then none
            else some (w * momentumDecay (max 1 (dts n)))) := by
        show momentumStep (momentumRun v dts n) (dts n) = _
        rw [hw]
        rfl
      by_cases hlt : |w * momentumDecay (max 1 (dts n))| < 0.005
      · left
        rw [hstep, if_pos hlt]
      · right
        refine ⟨w * momentumDecay (max 1 (dts n)), by rw [hstep, if_neg hlt], ?_,
          le_of_not_lt hlt⟩
        rw [abs_mul, abs_of_nonneg (momentumDecay_nonneg _), pow_succ]
        have h1 : |w| * momentumDecay (max 1 (dts n))
            ≤ (|v| * momentumDecay 1 ^ n) * momentumDecay (max 1 (dts n)) :=
          mul_le_mul_of_nonneg_right hbound (momentumDecay_nonneg _)
        have h2 : (|v| * momentumDecay 1 ^ n) * momentumDecay (max 1 (dts n))
            ≤ (|v| * momentumDecay 1 ^ n) * momentumDecay 1 :=
          mul_le_mul_of_nonneg_left (momentumDecay_le (dts n))
            (mul_nonneg (abs_nonneg v) (pow_nonneg (momentumDecay_nonneg 1) n))
        calc |w| * momentumDecay (max 1 (dts n))
            ≤ (|v| * momentumDecay 1 ^ n) * momentumDecay (max 1 (dts n)) := h1
          _ ≤ (|v| * momentumDecay 1 ^ n) * momentumDecay 1 := h2
          _ = |v| * (momentumDecay 1 ^ n * momentumDecay 1) := by ring

/-- **C6**: `startMomentum(v)` with `|v| < 0.005` schedules nothing and stays
Idle; every frame step's friction factor `0.95^(dt/16.7)` with `dt ≥ 1` is
strictly below 1; and for every `v` and every frame-time sequence the engine
is back to Idle after finitely many frame steps. -/
theorem c6_momentum_terminates (v : ℝ) (dts : ℕ → ℝ) :
    (|v| < 0.005 → momentumStart v = none)
    ∧ (∀ dt : ℝ, 1 ≤ dt → momentumDecay dt < 1)
    ∧ ∃ n, momentumRun v dts n = none := by
  refine ⟨fun h => if_pos h, momentumDecay_lt_one, ?_⟩
  by_cases hv : |v| < 0.005
  · exact ⟨0, if_pos hv⟩
  · have hvpos : (0 : ℝ) < |v| := lt_of_lt_of_le (by norm_num) (le_of_not_lt hv)
    have hc1 : momentumDecay 1 < 1 := momentumDecay_lt_one 1 (le_refl 1)
    obtain ⟨n, hn⟩ := exists_pow_lt_of_lt_one
      (show (0 : ℝ) < 0.005 / |v| by positivity) hc1
    refine ⟨n, ?_⟩
    rcases momentumRun_cases v dts n with hnone | ⟨w, hw, hbound, hmin⟩
    · exact hnone
    · exfalso
      have hsmall : |v| * momentumDecay 1 ^ n < 0.005 := by
        rw [← lt_div_iff₀' hvpos]
        exact hn
      linarith

/-- Witness for `c6_momentum_terminates`: a sub-threshold start stays Idle,
and a full run from velocity 1 at 60 fps reaches Idle. -/
theorem c6_momentum_terminates_witness :
    momentumStart 0.001 = none
    ∧ ∃ n, momentumRun 1 (fun _ => 16.7) n = none :=
  ⟨(c6_momentum_terminates 0.001 fun _ => 16.7).1
      (by rw [abs_of_pos (by norm_num)]; norm_num),
    (c6_momentum_terminates 1 fun _ => 16.7).2.2⟩

end WSP
